import Mathlib

set_option autoImplicit false
set_option maxHeartbeats 1000000

/-
Shallow embedding of the Nightingale `ai-service` core:

* `services/redaction.py` — regex-based PHI redaction: pattern registry,
  `RedactionMap`, `redact`, `de_redact`, `cleanup_redaction_map`.
* `services/importance.py` — composite importance scoring:
  `_compute_recency_score`, `_compute_risk_score`, `_compute_unresolved_score`,
  `_compute_learned_score`, `compute_importance_score`.

Python `str` is modelled as `List Char` (the ASCII fragment that the patterns
and the claims exercise); Python `dict` (insertion-ordered, unique keys) is
modelled as an association list with update-in-place / append-on-new-key
semantics; Python floats are modelled as exact rationals; `uuid.uuid4().hex`
is modelled as an identifier supplied by the caller; the Supabase client and
its possible failures are modelled by an explicit `History` value.
-/

/-! ### Generic helpers: characters, association lists, substring search -/

/-- Python `re` word character (`\w`), restricted to ASCII: `[A-Za-z0-9_]`. -/
def isWordChar (c : Char) : Bool := c.isAlphanum || c == '_'

/-- Python whitespace (`\s`, `str.strip`, `str.isspace`), ASCII fragment:
space, tab, newline, carriage return, vertical tab, form feed. -/
def isPySpace (c : Char) : Bool :=
  c == ' ' || c == '\t' || c == '\n' || c == '\r' || c == Char.ofNat 11 || c == Char.ofNat 12

/-- First binding for key `k` in an association list (Python `dict[k]` /`dict.get`). -/
def lookupL {β : Type} : List (List Char × β) → List Char → Option β
  | [], _ => none
  | (k', v) :: rest, k => if k' = k then some v else lookupL rest k

/-- Python `dict[k] = v`: overwrite in place if the key exists, else append
(preserving insertion order). -/
def setL {β : Type} : List (List Char × β) → List Char → β → List (List Char × β)
  | [], k, v => [(k, v)]
  | (k', v') :: rest, k, v => if k' = k then (k, v) :: rest else (k', v') :: setL rest k v

/-- Python `dict.pop(k, None)` (the removal part): drop every binding of `k`
(keys of a `dict` are unique, so at most one binding is ever present). -/
def eraseL {β : Type} : List (List Char × β) → List Char → List (List Char × β)
  | [], _ => []
  | (k', v') :: rest, k => if k' = k then eraseL rest k else (k', v') :: eraseL rest k

/-- `listIsPre p s` holds iff `p` is a prefix of `s`. -/
def listIsPre : List Char → List Char → Bool
  | [], _ => true
  | _ :: _, [] => false
  | a :: ps, b :: qs => a == b && listIsPre ps qs

/-- Python `pat in s`: `pat` occurs as a contiguous substring of `s`. -/
def listIsSub (pat : List Char) : List Char → Bool
  | [] => pat.isEmpty
  | c :: rest => listIsPre pat (c :: rest) || listIsSub pat rest

/-- Worker for `replaceAll`.  The counter `skip` counts characters that belong
to an occurrence already replaced and must be passed over without scanning. -/
def replGo (pat rep : List Char) : List Char → Nat → List Char
  | [], _ => []
  | _ :: cs, Nat.succ k => replGo pat rep cs k
  | c :: cs, 0 =>
    if !pat.isEmpty && listIsPre pat (c :: cs) then
      rep ++ replGo pat rep cs (pat.length - 1)
    else
      c :: replGo pat rep cs 0

/-- Python `s.replace(pat, rep)`: replace every occurrence of `pat` left to
right, never rescanning replacement text.  (For `pat = ""`, Python interleaves
`rep` everywhere; the engine only ever calls this with nonempty placeholder
patterns, and the model returns `s` unchanged in that unreachable case.) -/
def replaceAll (s pat rep : List Char) : List Char := replGo pat rep s 0

/-! ### Decimal rendering of counters (Python f-string `{count}`) -/

/-- Fuel-driven base-10 rendering; `fuel` only needs to exceed the digit count. -/
def natDigitsAux : Nat → Nat → List Char
  | 0, _ => []
  | fuel + 1, n =>
    if n < 10 then [Nat.digitChar n] else natDigitsAux fuel (n / 10) ++ [Nat.digitChar (n % 10)]

/-- Decimal digits of `n`, most significant first (Python `str(n)`). -/
def natDigits (n : Nat) : List Char := natDigitsAux (n + 1) n

/-- Numeric value of a decimal digit character (left inverse to `Nat.digitChar`
on `0..9`), used only to prove `natDigits` injective. -/
def digitVal (c : Char) : Nat :=
  if c = '0' then 0 else if c = '1' then 1 else if c = '2' then 2 else if c = '3' then 3
  else if c = '4' then 4 else if c = '5' then 5 else if c = '6' then 6 else if c = '7' then 7
  else if c = '8' then 8 else 9

/-- Decimal parse, left inverse of `natDigits`. -/
def digitsToNat (l : List Char) : Nat := l.foldl (fun acc c => 10 * acc + digitVal c) 0

/-! ### Redaction data model (`services/redaction.py`) -/

/-- One collected regex match: `(m.start(), m.end(), entity_type, m.group())`. -/
structure Span where
  start : Nat
  stop : Nat
  cat : List Char
  val : List Char
  deriving DecidableEq, Repr

/-- `RedactionMap`: server-side bidirectional mapping between original PHI
values and placeholders, with per-category counters.  `id` models the
`uuid.uuid4().hex` default (supplied by the caller in this embedding). -/
structure RedactionMap where
  id : List Char
  forward : List (List Char × List Char)
  reverse : List (List Char × List Char)
  entityCounts : List (List Char × Nat)
  deriving DecidableEq, Repr

/-- A freshly constructed `RedactionMap()` with the given identifier. -/
def RedactionMap.mkEmpty (newId : List Char) : RedactionMap := ⟨newId, [], [], []⟩

/-- The placeholder text `f"<{entity_type}_{count}>"`. -/
def mkPlaceholder (entityType : List Char) (count : Nat) : List Char :=
  '<' :: (entityType ++ '_' :: (natDigits count ++ ['>']))

/-- `RedactionMap.add`: register an original value and return its placeholder,
reusing the existing placeholder when the value was seen before. -/
def RedactionMap.add (m : RedactionMap) (original : List Char) (entityType : List Char) :
    RedactionMap × List Char :=
  match lookupL m.forward original with
  | some ph => (m, ph)
  | none =>
    let count := (lookupL m.entityCounts entityType).getD 0 + 1
    let ph := mkPlaceholder entityType count
    ({ m with forward := m.forward ++ [(original, ph)],
              reverse := m.reverse ++ [(ph, original)],
              entityCounts := setL m.entityCounts entityType count }, ph)

/-- `RedactionMap.total_entities`: number of distinct originals (`len(forward)`). -/
def RedactionMap.totalEntities (m : RedactionMap) : Nat := m.forward.length

/-- The replacement loop of `redact`: for each kept span (in list order),
register the value and splice its placeholder over `[start, stop)` offsets of
the evolving text. -/
def applyAll (m : RedactionMap) (t : List Char) : List Span → RedactionMap × List Char
  | [] => (m, t)
  | sp :: rest =>
    let p := m.add sp.val sp.cat
    applyAll p.1 (t.take sp.start ++ p.2 ++ t.drop sp.stop) rest

/-- The map component of the replacement loop, in isolation. -/
def addAll (m : RedactionMap) : List Span → RedactionMap
  | [] => m
  | sp :: rest => addAll (m.add sp.val sp.cat).1 rest

/-- The process-wide `_redaction_store`, keyed by `RedactionMap.id`. -/
abbrev Store := List (List Char × RedactionMap)

/-! ### Matcher combinators

Each compiled pattern of `_PATTERNS` is modelled as a function from the text
suffix at the current position (plus the preceding character, for `\b`) to the
length of the match attempted at that position, `none` when no match starts
there.  Greedy counted repetition with backtracking (`{m,n}`, `+`, `?`)
follows Python's leftmost-greedy backtracking semantics. -/

/-- A matcher continuation: consumes a prefix of the suffix it is given and
reports the total number of characters consumed (itself plus the rest of the
pattern), or `none`. -/
abbrev K := List Char → Option Nat

/-- Empty continuation: end of pattern. -/
def kEnd : K := fun _ => some 0

/-- Trailing `\b` placed directly after a word character: succeeds exactly
when the next character is absent or not a word character. -/
def bAfter : K
  | [] => some 0
  | c :: _ => if isWordChar c then none else some 0

/-- Single character from a class. -/
def kChar (p : Char → Bool) (k : K) : K
  | [] => none
  | c :: rest =>
    if p c then
      match k rest with
      | some n => some (n + 1)
      | none => none
    else none

/-- Greedy optional character (`[..]?`): try consuming one, backtrack to zero. -/
def kOpt (p : Char → Bool) (k : K) : K
  | [] => k []
  | c :: rest =>
    if p c then
      match k rest with
      | some n => some (n + 1)
      | none => k (c :: rest)
    else k (c :: rest)

/-- Consume exactly `n` characters all satisfying `p`. -/
def consume (p : Char → Bool) : Nat → List Char → Option (List Char)
  | 0, cs => some cs
  | _ + 1, [] => none
  | n + 1, c :: cs => if p c then consume p n cs else none

/-- Greedy counted repetition: try `tryN` repetitions, backtracking downward
(never below `lo`). -/
def kRepsAux (p : Char → Bool) (k : K) (lo : Nat) (cs : List Char) : Nat → Option Nat
  | 0 => if lo = 0 then k cs else none
  | tryN + 1 =>
    (if lo ≤ tryN + 1 then
       match consume p (tryN + 1) cs with
       | some rest =>
         match k rest with
         | some m => some (tryN + 1 + m)
         | none => none
       | none => none
     else none).orElse (fun _ => kRepsAux p k lo cs tryN)

/-- `[..]{lo,hi}` (greedy); `+` is `lo = 1`, `hi = ` length of the suffix. -/
def kReps (p : Char → Bool) (lo hi : Nat) (k : K) : K := fun cs => kRepsAux p k lo cs hi

/-- Wordness of an optional character (`none` = text edge, not a word char). -/
def isWordO : Option Char → Bool
  | none => false
  | some c => isWordChar c

/-- The `\b` assertion at the start of a pattern: `prev` is the character just
before the current position (`none` at the start of the text). -/
def leadBoundary (prev : Option Char) : List Char → Bool
  | [] => isWordO prev
  | c :: _ => isWordO prev != isWordChar c

/-- A full pattern matcher: previous character and current suffix to match length. -/
abbrev Matcher := Option Char → List Char → Option Nat

/-! ### The twelve compiled patterns of `_PATTERNS` -/

/-- Singapore NRIC: `\b[STFGM]\d{7}[A-Z]\b`. -/
def tryNRIC : Matcher := fun prev cs =>
  if leadBoundary prev cs then
    kChar (fun c => c == 'S' || c == 'T' || c == 'F' || c == 'G' || c == 'M')
      (kReps Char.isDigit 7 7 (kChar Char.isUpper bAfter)) cs
  else none

/-- SG mobile: `\b[89]\d{7}\b`. -/
def tryPhoneMobile : Matcher := fun prev cs =>
  if leadBoundary prev cs then
    kChar (fun c => c == '8' || c == '9') (kReps Char.isDigit 7 7 bAfter) cs
  else none

/-- SG landline: `\b6\d{7}\b`. -/
def tryPhoneLandline : Matcher := fun prev cs =>
  if leadBoundary prev cs then
    kChar (fun c => c == '6') (kReps Char.isDigit 7 7 bAfter) cs
  else none

/-- SG phone with prefix: `\b\+65\s?[689]\d{7}\b`. -/
def tryPhonePrefixed : Matcher := fun prev cs =>
  if leadBoundary prev cs then
    kChar (fun c => c == '+')
      (kChar (fun c => c == '6')
        (kChar (fun c => c == '5')
          (kOpt isPySpace
            (kChar (fun c => c == '6' || c == '8' || c == '9')
              (kReps Char.isDigit 7 7 bAfter))))) cs
  else none

/-- Medical record number: `\bMRN[:\s-]?\d{6,10}\b`, case-insensitive. -/
def tryMRN : Matcher := fun prev cs =>
  if leadBoundary prev cs then
    kChar (fun c => c.toLower == 'm')
      (kChar (fun c => c.toLower == 'r')
        (kChar (fun c => c.toLower == 'n')
          (kOpt (fun c => c == ':' || isPySpace c || c == '-')
            (kReps Char.isDigit 6 10 bAfter)))) cs
  else none

/-- Character class `[A-Za-z0-9._%+-]` of the email local part. -/
def isEmailLocalChar (c : Char) : Bool :=
  c.isAlphanum || c == '.' || c == '_' || c == '%' || c == '+' || c == '-'

/-- Character class `[A-Za-z0-9.-]` of the email domain part. -/
def isEmailDomChar (c : Char) : Bool := c.isAlphanum || c == '.' || c == '-'

/-- Character class `[A-Z|a-z]` of the email top-level-domain part
(the class contains a literal pipe). -/
def isEmailTldChar (c : Char) : Bool := c.isAlpha || c == '|'

/-- Email address: `\b[A-Za-z0-9._%+-]+@[A-Za-z0-9.-]+\.[A-Z|a-z]{2,}\b`. -/
def tryEmail : Matcher := fun prev cs =>
  if leadBoundary prev cs then
    kReps isEmailLocalChar 1 cs.length
      (kChar (fun c => c == '@')
        (fun cs2 => kReps isEmailDomChar 1 cs2.length
          (kChar (fun c => c == '.')
            (fun cs3 => kReps isEmailTldChar 2 cs3.length bAfter cs3)) cs2)) cs
  else none

/-- Separator class `[\s-]` of the credit-card pattern. -/
def isSepChar (c : Char) : Bool := isPySpace c || c == '-'

/-- Credit card: `\b\d{4}[\s-]?\d{4}[\s-]?\d{4}[\s-]?\d{1,7}\b`. -/
def tryCard : Matcher := fun prev cs =>
  if leadBoundary prev cs then
    kReps Char.isDigit 4 4
      (kOpt isSepChar
        (kReps Char.isDigit 4 4
          (kOpt isSepChar
            (kReps Char.isDigit 4 4
              (kOpt isSepChar
                (kReps Char.isDigit 1 7 bAfter)))))) cs
  else none

/-- IPv4 address: `\b\d{1,3}\.\d{1,3}\.\d{1,3}\.\d{1,3}\b`. -/
def tryIPv4Addr : Matcher := fun prev cs =>
  if leadBoundary prev cs then
    kReps Char.isDigit 1 3
      (kChar (fun c => c == '.')
        (kReps Char.isDigit 1 3
          (kChar (fun c => c == '.')
            (kReps Char.isDigit 1 3
              (kChar (fun c => c == '.')
                (kReps Char.isDigit 1 3 bAfter)))))) cs
  else none

/-- Character class `[^\s<>\"']` of the URL body. -/
def isUrlBodyChar (c : Char) : Bool :=
  !(isPySpace c || c == '<' || c == '>' || c == '"' || c == Char.ofNat 39)

/-- URL: `https?://[^\s<>\"']+`, case-insensitive, no word-boundary anchors. -/
def tryUrl : Matcher := fun _ cs =>
  kChar (fun c => c.toLower == 'h')
    (kChar (fun c => c.toLower == 't')
      (kChar (fun c => c.toLower == 't')
        (kChar (fun c => c.toLower == 'p')
          (kOpt (fun c => c.toLower == 's')
            (kChar (fun c => c == ':')
              (kChar (fun c => c == '/')
                (kChar (fun c => c == '/')
                  (fun cs2 => kReps isUrlBodyChar 1 cs2.length kEnd cs2)))))))) cs

/-- Separator class (slash or dash) of the first date pattern. -/
def isSlashDash (c : Char) : Bool := c == '/' || c == '-'

/-- Date pattern with slash-or-dash separators:
backslash-b, digits 1-2, sep, digits 1-2, sep, digits 2-4, backslash-b. -/
def tryDateSlash : Matcher := fun prev cs =>
  if leadBoundary prev cs then
    kReps Char.isDigit 1 2
      (kChar isSlashDash
        (kReps Char.isDigit 1 2
          (kChar isSlashDash
            (kReps Char.isDigit 2 4 bAfter)))) cs
  else none

/-- Date: `\b\d{4}-\d{2}-\d{2}\b`. -/
def tryDateIso : Matcher := fun prev cs =>
  if leadBoundary prev cs then
    kReps Char.isDigit 4 4
      (kChar (fun c => c == '-')
        (kReps Char.isDigit 2 2
          (kChar (fun c => c == '-')
            (kReps Char.isDigit 2 2 bAfter)))) cs
  else none

/-! ### Category labels and the pattern registry -/

def catNRIC : List Char := ['S', 'G', '_', 'N', 'R', 'I', 'C']

def catPhone : List Char := ['P', 'H', 'O', 'N', 'E', '_', 'N', 'U', 'M', 'B', 'E', 'R']

def catMRN : List Char :=
  ['M', 'E', 'D', 'I', 'C', 'A', 'L', '_', 'R', 'E', 'C', 'O', 'R', 'D', '_',
   'N', 'U', 'M', 'B', 'E', 'R']

def catEmail : List Char := ['E', 'M', 'A', 'I', 'L', '_', 'A', 'D', 'D', 'R', 'E', 'S', 'S']

def catCard : List Char := ['C', 'R', 'E', 'D', 'I', 'T', '_', 'C', 'A', 'R', 'D']

def catIPAddr : List Char := ['I', 'P', '_', 'A', 'D', 'D', 'R', 'E', 'S', 'S']

def catUrl : List Char := ['U', 'R', 'L']

def catDate : List Char := ['D', 'A', 'T', 'E', '_', 'T', 'I', 'M', 'E']

/-- The eight distinct category labels appearing in `_PATTERNS`. -/
def catNames : List (List Char) :=
  [catNRIC, catPhone, catMRN, catEmail, catCard, catIPAddr, catUrl, catDate]

/-- The ordered pattern registry `_PATTERNS`. -/
def PATTERNS : List (Matcher × List Char) :=
  [(tryNRIC, catNRIC), (tryPhoneMobile, catPhone), (tryPhoneLandline, catPhone),
   (tryPhonePrefixed, catPhone), (tryMRN, catMRN), (tryEmail, catEmail),
   (tryCard, catCard), (tryIPv4Addr, catIPAddr), (tryUrl, catUrl),
   (tryDateSlash, catDate), (tryDateIso, catDate)]

/-! ### `finditer` and match collection -/

/-- Scanning loop of `pattern.finditer(text)`: at each position try the
matcher; on a match of length `len + 1`, emit the span and resume scanning
after its end (the counter argument counts positions still to skip). -/
def finditerGo (f : Matcher) (cat : List Char) :
    List Char → Option Char → Nat → Nat → List Span
  | [], _, _, _ => []
  | c :: rs, _, i, Nat.succ k => finditerGo f cat rs (some c) (i + 1) k
  | c :: rs, prev, i, 0 =>
    match f prev (c :: rs) with
    | some (Nat.succ len) =>
      ⟨i, i + (len + 1), cat, (c :: rs).take (len + 1)⟩ ::
        finditerGo f cat rs (some c) (i + 1) len
    | _ => finditerGo f cat rs (some c) (i + 1) 0

/-- The match-collection loop of `redact`: every match of every registry
pattern, in registry order then text order. -/
def findAll (text : List Char) : List Span :=
  (PATTERNS.map (fun pc => finditerGo pc.1 pc.2 text none 0 0)).flatten

/-! ### Sorting and overlap resolution -/

/-- Stable insertion for descending-by-start order. -/
def insertDesc (x : Span) : List Span → List Span
  | [] => [x]
  | y :: ys => if y.start ≤ x.start then x :: y :: ys else y :: insertDesc x ys

/-- `matches.sort(key=lambda x: x[0], reverse=True)`: stable sort by start
offset, descending. -/
def sortDesc : List Span → List Span
  | [] => []
  | x :: xs => insertDesc x (sortDesc xs)

/-- Does candidate `m` overlap any already-kept span
(`match[0] < existing[1] and match[1] > existing[0]`)? -/
def overlapsAny (kept : List Span) (m : Span) : Bool :=
  kept.any (fun e => m.start < e.stop && e.start < m.stop)

/-- The de-duplication loop of `redact`: greedily accept candidates in order,
skipping any that overlaps an already-kept span. -/
def filterOvGo (acc : List Span) : List Span → List Span
  | [] => acc
  | m :: rest =>
    if overlapsAny acc m then filterOvGo acc rest else filterOvGo (acc ++ [m]) rest

/-- The spans `redact` actually replaces: all matches, sorted by start
descending, then filtered for overlaps. -/
def keptSpans (text : List Char) : List Span := filterOvGo [] (sortDesc (findAll text))

/-! ### Public API of `services/redaction.py` -/

/-- `redact(text)`: returns the redacted text and the redaction map, and
inserts the map into the store under its id.  `newId` models the map's
`uuid.uuid4().hex` identifier; the store is threaded explicitly. -/
def redact (store : Store) (newId : List Char) (text : List Char) :
    List Char × RedactionMap × Store :=
  if text.all isPySpace then
    let emptyMap := RedactionMap.mkEmpty newId
    (text, emptyMap, setL store emptyMap.id emptyMap)
  else if (findAll text).isEmpty then
    let emptyMap := RedactionMap.mkEmpty newId
    (text, emptyMap, setL store emptyMap.id emptyMap)
  else
    let mr := applyAll (RedactionMap.mkEmpty newId) text (keptSpans text)
    (mr.2, mr.1, setL store mr.1.id mr.1)

/-- The exception raised by `de_redact` for an unknown or expired map id
(a `KeyError` in the source; the spec's NotFoundError). -/
inductive RedactError where
  | notFound (mapId : List Char)
  deriving DecidableEq, Repr

/-- `de_redact(redacted_text, map_id)`: look the map up (failing on an unknown
id), then replace each placeholder by its original, iterating `reverse` in
insertion order. -/
def de_redact (store : Store) (redactedText : List Char) (mapId : List Char) :
    Except RedactError (List Char) :=
  match lookupL store mapId with
  | none => Except.error (RedactError.notFound mapId)
  | some m => Except.ok (m.reverse.foldl (fun acc pr => replaceAll acc pr.1 pr.2) redactedText)

/-- `cleanup_redaction_map(map_id)`: remove the map from the store, reporting
whether it was present. -/
def cleanup_redaction_map (store : Store) (mapId : List Char) : Bool × Store :=
  ((lookupL store mapId).isSome, eraseL store mapId)

/-! ### Importance scoring (`services/importance.py`)

Python floats are modelled as exact rationals; "now" is an explicit rational
parameter (seconds since the epoch, UTC); the `created_at` argument is
abstracted into `Created`; the Supabase client together with the query it
serves (and its failure modes) is abstracted into `History`. -/

/-- Weight configuration. -/
def RECENCY_WEIGHT : ℚ := 3 / 10

def RISK_LEVEL_WEIGHT : ℚ := 3 / 10

def UNRESOLVED_ACTION_WEIGHT : ℚ := 2 / 10

def LEARNED_WEIGHT : ℚ := 2 / 10

/-- `RISK_LEVEL_SCORES`. -/
def RISK_LEVEL_SCORES : List (List Char × ℚ) :=
  [(r"critical".toList, 1), (r"high".toList, 8 / 10), (r"medium".toList, 1 / 2),
   (r"low".toList, 2 / 10)]

/-- `ACTION_TYPE_WEIGHTS`. -/
def ACTION_TYPE_WEIGHTS : List (List Char × ℚ) :=
  [(r"accept".toList, 1), (r"manual_highlight".toList, 8 / 10), (r"comment".toList, 7 / 10),
   (r"pin".toList, 7 / 10), (r"edit".toList, 1 / 2), (r"view".toList, 3 / 10),
   (r"reject".toList, -3 / 10), (r"dismiss".toList, -2 / 10), (r"unpin".toList, 0)]

/-- `_UNRESOLVED_KEYWORDS` (a Python set; only counted, so order is irrelevant). -/
def UNRESOLVED_KEYWORDS : List (List Char) :=
  [r"pending".toList, r"monitor".toList, r"follow up".toList, r"follow-up".toList,
   r"reassess".toList, r"unresolved".toList, r"continue".toList, r"review".toList,
   r"escalate".toList, r"refer".toList, r"outstanding".toList, r"awaiting".toList,
   r"to be".toList, r"tbd".toList, r"scheduled".toList]

/-- The stopword set of `_extract_keywords`. -/
def STOPWORDS : List (List Char) :=
  [r"the".toList, r"and".toList, r"was".toList, r"for".toList, r"that".toList,
   r"with".toList, r"this".toList, r"from".toList, r"are".toList, r"were".toList,
   r"been".toList, r"have".toList, r"has".toList, r"had".toList, r"not".toList,
   r"but".toList, r"what".toList, r"all".toList, r"can".toList, r"her".toList,
   r"his".toList, r"one".toList, r"our".toList, r"out".toList, r"also".toList,
   r"into".toList, r"its".toList, r"may".toList, r"than".toList, r"then".toList,
   r"them".toList, r"some".toList, r"she".toList, r"him".toList, r"how".toList,
   r"did".toList, r"who".toList, r"will".toList]

/-- Python `str.lower`, ASCII fragment. -/
def toLowerL (s : List Char) : List Char := s.map Char.toLower

/-- Python `str.strip()` (default whitespace strip). -/
def stripWs (s : List Char) : List Char :=
  ((s.dropWhile isPySpace).reverse.dropWhile isPySpace).reverse

/-- The `created_at` argument: Python accepts `None` or a malformed string
(both neutral) or a parseable timestamp, modelled as epoch seconds (UTC). -/
inductive Created where
  | absent
  | malformed
  | valid (t : ℚ)
  deriving DecidableEq

/-- The age-in-hours step ladder of `_compute_recency_score`. -/
def recencyStep (ageHours : ℚ) : ℚ :=
  if ageHours ≤ 24 then 1
  else if ageHours ≤ 72 then 8 / 10
  else if ageHours ≤ 168 then 6 / 10
  else if ageHours ≤ 336 then 4 / 10
  else if ageHours ≤ 720 then 2 / 10
  else 1 / 10

/-- `_compute_recency_score`: step function of the age in hours relative to
`now` (`age_hours = max(0, (now - dt).total_seconds() / 3600)`), with neutral
0.5 for an absent or malformed timestamp. -/
def computeRecencyScore (now : ℚ) : Created → ℚ
  | Created.absent => 1 / 2
  | Created.malformed => 1 / 2
  | Created.valid t => recencyStep (max 0 ((now - t) / 3600))

/-- `_compute_risk_score`: table lookup after lowercasing and stripping,
defaulting to 0.5. -/
def computeRiskScore (riskLevel : List Char) : ℚ :=
  (lookupL RISK_LEVEL_SCORES (stripWs (toLowerL riskLevel))).getD (1 / 2)

/-- The keyword count of `_compute_unresolved_score`:
`sum(1 for kw in _UNRESOLVED_KEYWORDS if kw in content_lower)`. -/
def unresolvedMatchCount (content : List Char) : Nat :=
  (UNRESOLVED_KEYWORDS.filter (fun kw => listIsSub kw (toLowerL content))).length

/-- `_compute_unresolved_score`. -/
def computeUnresolvedScore (content : List Char) : ℚ :=
  if content.isEmpty then 0
  else
    let cnt := unresolvedMatchCount content
    if 3 ≤ cnt then 1
    else if 2 ≤ cnt then 8 / 10
    else if 1 ≤ cnt then 1 / 2
    else 0

/-- Lowercase ASCII letter (the class `[a-z]` of `_extract_keywords`). -/
def isLowerAlphaCh (c : Char) : Bool := 'a' ≤ c && c ≤ 'z'

/-- Maximal runs of characters satisfying `isLowerAlphaCh` (the matches of
`re.findall(r"[a-z]{3,}", ...)` before the length constraint); `cur` holds the
current run, reversed. -/
def runsGo (cur : List Char) : List Char → List (List Char)
  | [] => if cur.isEmpty then [] else [cur.reverse]
  | c :: rest =>
    if isLowerAlphaCh c then runsGo (c :: cur) rest
    else if cur.isEmpty then runsGo [] rest
    else cur.reverse :: runsGo [] rest

/-- `_extract_keywords`: lowercase alphabetic runs of length at least 3, as a
set (deduplicated), minus the stopwords. -/
def extractKeywords (text : List Char) : List (List Char) :=
  (((runsGo [] (toLowerL text)).filter (fun w => 3 ≤ w.length)).dedup).filter
    (fun w => !(STOPWORDS.contains w))

/-- The `keywords` entry of a row's `target_metadata`
(`(row.get("target_metadata") or {}).get("keywords", [])`): missing metadata
or key, a JSON list, a comma-separated string, or some other JSON type. -/
inductive KwField where
  | missing
  | ofList (l : List (List Char))
  | ofStr (s : List Char)
  | other
  deriving DecidableEq

/-- One `interaction_log` row as consumed by `_compute_learned_score`
(`row.get("action_type", "view")`, `row.get("target_id", "")`, keywords). -/
structure Row where
  actionType : Option (List Char)
  targetId : Option (List Char)
  keywords : KwField
  deriving DecidableEq

/-- Python `s.split(",")` (empty pieces preserved). -/
def splitCommaGo (cur : List Char) : List Char → List (List Char)
  | [] => [cur.reverse]
  | c :: rest =>
    if c == ',' then cur.reverse :: splitCommaGo [] rest else splitCommaGo (c :: cur) rest

/-- The stored keyword set of a row: `set(list)`, `set(str.split(","))`, or
empty for a missing or differently-typed field. -/
def storedKeywordsOf : KwField → List (List Char)
  | KwField.missing => []
  | KwField.ofList l => l.dedup
  | KwField.ofStr s => (splitCommaGo [] s).dedup
  | KwField.other => []

/-- The interaction-history collaborator: the Supabase client is missing
(`_get_supabase()` returned `None`), the query raised, or it returned rows. -/
inductive History where
  | unavailable
  | failure
  | rows (rs : List Row)
  deriving DecidableEq

/-- The per-row accumulation loop of `_compute_learned_score`: builds
`target_scores` and `target_keyword_overlap` keyed by target id. -/
def learnedLoop (qkws : List (List Char)) :
    List Row → List (List Char × ℚ) → List (List Char × ℚ) →
    List (List Char × ℚ) × List (List Char × ℚ)
  | [], scores, overlapMax => (scores, overlapMax)
  | row :: rest, scores, overlapMax =>
    let stored := storedKeywordsOf row.keywords
    let frac : Option ℚ :=
      if stored.isEmpty then some (2 / 10)
      else
        let ov := qkws.filter (fun k => stored.contains k)
        if ov.isEmpty then none
        else some ((ov.length : ℚ) / ((max qkws.length 1 : Nat) : ℚ))
    match frac with
    | none => learnedLoop qkws rest scores overlapMax
    | some r =>
      let tid := row.targetId.getD []
      let mult := (lookupL ACTION_TYPE_WEIGHTS (row.actionType.getD (r"view".toList))).getD (3 / 10)
      let base := (lookupL scores tid).getD 0
      let obase := (lookupL overlapMax tid).getD 0
      learnedLoop qkws rest (setL scores tid (base + mult)) (setL overlapMax tid (max obase r))

/-- The overlap-weighted totals loop: `total_score += overlap * score`,
`total_weight += overlap` over the entries of `target_scores`. -/
def totalsGo (overlapMax : List (List Char × ℚ)) (acc : ℚ × ℚ) :
    List (List Char × ℚ) → ℚ × ℚ
  | [] => acc
  | (tid, sc) :: rest =>
    let ov := (lookupL overlapMax tid).getD 0
    totalsGo overlapMax (acc.1 + ov * sc, acc.2 + ov) rest

/-- `_compute_learned_score`: neutral 0.5 when the client is missing, the
content has no keywords, the query raised or returned nothing usable;
otherwise the overlap-weighted mean, soft-capped at 5.0 and clamped. -/
def computeLearnedScore (history : History) (content : List Char) : ℚ :=
  match history with
  | History.unavailable => 1 / 2
  | h =>
    let kws := extractKeywords content
    if kws.isEmpty then 1 / 2
    else
      match h with
      | History.unavailable => 1 / 2
      | History.failure => 1 / 2
      | History.rows rs =>
        if rs.isEmpty then 1 / 2
        else
          let sm := learnedLoop kws rs [] []
          if sm.1.isEmpty then 1 / 2
          else
            let tt := totalsGo sm.2 (0, 0) sm.1
            if tt.2 = 0 then 1 / 2
            else max 0 (min 1 (tt.1 / tt.2 / 5))

/-- Computable floor of a rational (integer division of numerator by
denominator), bridged to Mathlib's floor in the proofs. -/
def ratFloorZ (q : ℚ) : ℤ := q.num / (q.den : ℤ)

/-- Round to the nearest integer, ties to even (Python `round` on exact
decimal values; binary-float representation error is out of scope). -/
def roundHalfEven (q : ℚ) : ℤ :=
  if q - (ratFloorZ q : ℚ) < 1 / 2 then ratFloorZ q
  else if 1 / 2 < q - (ratFloorZ q : ℚ) then ratFloorZ q + 1
  else if ratFloorZ q % 2 = 0 then ratFloorZ q else ratFloorZ q + 1

/-- Python `round(x, 3)` on exact decimal values. -/
def round3 (q : ℚ) : ℚ := ((roundHalfEven (q * 1000) : ℤ) : ℚ) / 1000

/-- `compute_importance_score`: the weighted composite, clamped to [0, 1] and
rounded to 3 decimal places. -/
def compute_importance_score (now : ℚ) (history : History) (content : List Char)
    (riskLevel : List Char) (createdAt : Created) : ℚ :=
  let recency := computeRecencyScore now createdAt
  let risk := computeRiskScore riskLevel
  let unresolved := computeUnresolvedScore content
  let learned := computeLearnedScore history content
  let score := RECENCY_WEIGHT * recency + RISK_LEVEL_WEIGHT * risk
    + UNRESOLVED_ACTION_WEIGHT * unresolved + LEARNED_WEIGHT * learned
  round3 (max 0 (min 1 score))

/-- The spec's composite formula, stated with an explicit learned component:
`0.3*recency + 0.3*risk + 0.2*unresolved + 0.2*learned`, clamped to [0, 1]
and rounded to 3 decimal places. -/
def specCompositeScore (recency risk unresolved learned : ℚ) : ℚ :=
  round3 (max 0 (min 1 (3 / 10 * recency + 3 / 10 * risk + 2 / 10 * unresolved
    + 2 / 10 * learned)))

/-! ### Basic lemmas about the association-list model -/

theorem lookupL_eraseL {β : Type} (l : List (List Char × β)) (k : List Char) :
    lookupL (eraseL l k) k = none := by
  induction l with
  | nil => rfl
  | cons hd tl ih =>
    obtain ⟨k', v'⟩ := hd
    by_cases h : k' = k <;> simp [eraseL, lookupL, h, ih]

theorem eraseL_eraseL {β : Type} (l : List (List Char × β)) (k : List Char) :
    eraseL (eraseL l k) k = eraseL l k := by
  induction l with
  | nil => rfl
  | cons hd tl ih =>
    obtain ⟨k', v'⟩ := hd
    by_cases h : k' = k <;> simp [eraseL, h, ih]

theorem lookupL_setL_self {β : Type} (l : List (List Char × β)) (k : List Char) (v : β) :
    lookupL (setL l k v) k = some v := by
  induction l with
  | nil => simp [setL, lookupL]
  | cons hd tl ih =>
    obtain ⟨k', v'⟩ := hd
    by_cases h : k' = k <;> simp [setL, lookupL, h, ih]

theorem lookupL_setL_other {β : Type} (l : List (List Char × β)) (k k' : List Char) (v : β)
    (h : k' ≠ k) : lookupL (setL l k v) k' = lookupL l k' := by
  have h' : k ≠ k' := Ne.symm h
  induction l with
  | nil => simp [setL, lookupL, h']
  | cons hd tl ih =>
    obtain ⟨k0, v0⟩ := hd
    by_cases h0 : k0 = k
    · subst h0
      simp [setL, lookupL, h']
    · simp [setL, lookupL, h0, ih]

theorem lookupL_append_some {β : Type} {xs : List (List Char × β)} (ys : List (List Char × β))
    {k : List Char} {v : β} (h : lookupL xs k = some v) : lookupL (xs ++ ys) k = some v := by
  induction xs with
  | nil => simp [lookupL] at h
  | cons hd tl ih =>
    obtain ⟨k', v'⟩ := hd
    by_cases hk : k' = k <;> simp_all [lookupL]

theorem lookupL_append_none {β : Type} {xs : List (List Char × β)} (ys : List (List Char × β))
    {k : List Char} (h : lookupL xs k = none) : lookupL (xs ++ ys) k = lookupL ys k := by
  induction xs with
  | nil => rfl
  | cons hd tl ih =>
    obtain ⟨k', v'⟩ := hd
    by_cases hk : k' = k <;> simp_all [lookupL]

/-! ### Claim C3: unknown-map error -/

/-- Claim C3: for every map identifier not present in the store and every
input text, `de_redact` fails with the not-found error (the source's
`KeyError`); it never returns the input unchanged as a success. -/
theorem de_redact_unknown_id_errors (store : Store) (text mapId : List Char)
    (h : lookupL store mapId = none) :
    de_redact store text mapId = Except.error (RedactError.notFound mapId) := by
  simp [de_redact, h]

/-- Witness for C3, the spec's own example: an unknown id on an empty store. -/
theorem de_redact_unknown_id_errors_witness :
    lookupL ([] : Store) (r"unknown-id".toList) = none ∧
    de_redact ([] : Store) (r"<PERSON_1> called".toList) (r"unknown-id".toList)
      = Except.error (RedactError.notFound (r"unknown-id".toList)) :=
  ⟨rfl, de_redact_unknown_id_errors ([] : Store) (r"<PERSON_1> called".toList)
    (r"unknown-id".toList) rfl⟩

/-! ### Claim C5: idempotent release -/

/-- Claim C5: `cleanup_redaction_map` reports whether the map was present and
removes it; it is total (never raises), and a second release of the same
identifier is a no-op reporting "not present". -/
theorem cleanup_release_idempotent (store : Store) (mapId : List Char) :
    (cleanup_redaction_map store mapId).1 = (lookupL store mapId).isSome ∧
    lookupL (cleanup_redaction_map store mapId).2 mapId = none ∧
    cleanup_redaction_map (cleanup_redaction_map store mapId).2 mapId
      = (false, (cleanup_redaction_map store mapId).2) := by
  refine ⟨rfl, lookupL_eraseL store mapId, ?_⟩
  simp [cleanup_redaction_map, lookupL_eraseL, eraseL_eraseL]

/-! ### Claim C6: empty or whitespace-only input -/

/-- Claim C6: on an empty or whitespace-only input, `redact` returns the text
unchanged together with a freshly created empty map (zero total entities),
stored under its identifier; this is a normal return, not an error. -/
theorem redact_whitespace_returns_unchanged (store : Store) (newId text : List Char)
    (h : text.all isPySpace = true) :
    redact store newId text
      = (text, RedactionMap.mkEmpty newId, setL store newId (RedactionMap.mkEmpty newId)) ∧
    (RedactionMap.mkEmpty newId).totalEntities = 0 := by
  constructor
  · simp [redact, h, RedactionMap.mkEmpty]
  · rfl

/-- Witness for C6 at the empty text and a whitespace-only text. -/
theorem redact_whitespace_returns_unchanged_witness :
    (r"   ".toList.all isPySpace = true) ∧
    redact ([] : Store) (r"mapid".toList) (r"   ".toList)
      = (r"   ".toList, RedactionMap.mkEmpty (r"mapid".toList),
         setL ([] : Store) (r"mapid".toList) (RedactionMap.mkEmpty (r"mapid".toList))) ∧
    (RedactionMap.mkEmpty (r"mapid".toList)).totalEntities = 0 :=
  ⟨by decide,
   (redact_whitespace_returns_unchanged ([] : Store) (r"mapid".toList) (r"   ".toList)
     (by decide)).1,
   (redact_whitespace_returns_unchanged ([] : Store) (r"mapid".toList) (r"   ".toList)
     (by decide)).2⟩

/-! ### Claim C4: kept spans are pairwise non-overlapping -/

/-- Two spans do not overlap as half-open intervals. -/
def SpansDisjoint (a b : Span) : Prop := a.stop ≤ b.start ∨ b.stop ≤ a.start

theorem overlapsAny_false_disjoint {acc : List Span} {m : Span}
    (h : overlapsAny acc m = false) : ∀ e ∈ acc, SpansDisjoint e m := by
  intro e he
  unfold overlapsAny at h
  have hb := List.any_eq_false.mp h e he
  simp only [Bool.and_eq_true, decide_eq_true_eq, not_and, not_lt] at hb
  unfold SpansDisjoint
  rcases Nat.lt_or_ge m.start e.stop with h1 | h1
  · exact Or.inr (hb h1)
  · exact Or.inl h1

theorem filterOvGo_pairwise_disjoint (l : List Span) (acc : List Span)
    (hacc : acc.Pairwise SpansDisjoint) :
    (filterOvGo acc l).Pairwise SpansDisjoint := by
  induction l generalizing acc with
  | nil => exact hacc
  | cons m rest ih =>
    by_cases hov : overlapsAny acc m
    · simpa [filterOvGo, hov] using ih acc hacc
    · have hov' : overlapsAny acc m = false := by simpa using hov
      have hnew : (acc ++ [m]).Pairwise SpansDisjoint := by
        rw [List.pairwise_append]
        exact ⟨hacc, List.pairwise_singleton _ _,
          fun a ha b hb => by
            rw [List.mem_singleton] at hb
            subst hb
            exact overlapsAny_false_disjoint hov' a ha⟩
      simpa [filterOvGo, hov'] using ih (acc ++ [m]) hnew

/-- Claim C4: for every input text, the set of spans `redact` selects for
replacement is pairwise non-overlapping under half-open `[start, stop)`
interval semantics. -/
theorem redact_kept_spans_disjoint (text : List Char) :
    (keptSpans text).Pairwise SpansDisjoint :=
  filterOvGo_pairwise_disjoint (sortDesc (findAll text)) [] (List.Pairwise.nil)

/-! ### Claim C9: unresolved-action signal -/

/-- Claim C9: the unresolved component counts case-insensitive substring
occurrences of the fixed keyword set and maps the count through
0 ↦ 0.0, 1 ↦ 0.5, 2 ↦ 0.8, 3+ ↦ 1.0; empty content scores 0.0. -/
theorem unresolved_score_counts_keywords (content : List Char) :
    computeUnresolvedScore content =
      (if 3 ≤ unresolvedMatchCount content then 1
       else if 2 ≤ unresolvedMatchCount content then 8 / 10
       else if 1 ≤ unresolvedMatchCount content then 1 / 2
       else 0) := by
  by_cases h : content.isEmpty
  · have hnil : content = [] := by
      cases content
      · rfl
      · simp [List.isEmpty] at h
    subst hnil
    have hz : unresolvedMatchCount [] = 0 := by decide
    simp [computeUnresolvedScore, hz]
  · simp [computeUnresolvedScore, h]

/-! ### Rounding lemmas -/

theorem ratFloorZ_eq (q : ℚ) : ratFloorZ q = ⌊q⌋ := Rat.floor_def.symm

theorem roundHalfEven_floor_form (q : ℚ) :
    roundHalfEven q =
      (if Int.fract q < 1 / 2 then ⌊q⌋
       else if 1 / 2 < Int.fract q then ⌊q⌋ + 1
       else if ⌊q⌋ % 2 = 0 then ⌊q⌋ else ⌊q⌋ + 1) := by
  unfold roundHalfEven
  rw [ratFloorZ_eq]
  rfl

theorem roundHalfEven_mono {x y : ℚ} (h : x ≤ y) : roundHalfEven x ≤ roundHalfEven y := by
  rw [roundHalfEven_floor_form, roundHalfEven_floor_form]
  have hf : ⌊x⌋ ≤ ⌊y⌋ := Int.floor_mono h
  rcases eq_or_lt_of_le hf with heq | hlt
  · have hfr : Int.fract x ≤ Int.fract y := by
      simp only [Int.fract]
      rw [heq]
      linarith
    rw [heq]
    split_ifs <;> first | omega | linarith
  · have hx1 : Int.fract x < 1 := Int.fract_lt_one x
    have hy0 : 0 ≤ Int.fract y := Int.fract_nonneg y
    split_ifs <;> omega

theorem roundHalfEven_intCast (n : ℤ) : roundHalfEven ((n : ℤ) : ℚ) = n := by
  rw [roundHalfEven_floor_form]
  rw [Int.fract_intCast, Int.floor_intCast]
  norm_num

theorem round3_mono {x y : ℚ} (h : x ≤ y) : round3 x ≤ round3 y := by
  unfold round3
  have h1 : roundHalfEven (x * 1000) ≤ roundHalfEven (y * 1000) :=
    roundHalfEven_mono (by linarith)
  have h2 : ((roundHalfEven (x * 1000) : ℤ) : ℚ) ≤ ((roundHalfEven (y * 1000) : ℤ) : ℚ) := by
    exact_mod_cast h1
  linarith

theorem round3_zero : round3 0 = 0 := by
  unfold round3
  rw [show ((0 : ℚ) * 1000) = (((0 : ℤ) : ℤ) : ℚ) by norm_num, roundHalfEven_intCast]
  norm_num

theorem round3_one : round3 1 = 1 := by
  unfold round3
  rw [show ((1 : ℚ) * 1000) = (((1000 : ℤ) : ℤ) : ℚ) by norm_num, roundHalfEven_intCast]
  norm_num

theorem round3_bound_below {q : ℚ} (h : 0 ≤ q) : 0 ≤ round3 q := by
  have := round3_mono h
  rw [round3_zero] at this
  exact this

theorem round3_bound_above {q : ℚ} (h : q ≤ 1) : round3 q ≤ 1 := by
  have := round3_mono h
  rw [round3_one] at this
  exact this

theorem clamp01_mono {x y : ℚ} (h : x ≤ y) : max 0 (min 1 x) ≤ max 0 (min 1 y) :=
  max_le_max le_rfl (min_le_min le_rfl h)

/-! ### Claim C7: score formula and bounds -/

/-- Claim C7: the score equals the fixed-weight composite
`0.3*recency + 0.3*risk + 0.2*unresolved + 0.2*learned` clamped to [0, 1] and
rounded to 3 decimal places, and therefore always lies in [0, 1], for every
content, risk label, timestamp and history outcome. -/
theorem importance_score_formula_and_bounds (now : ℚ) (history : History)
    (content riskLevel : List Char) (createdAt : Created) :
    compute_importance_score now history content riskLevel createdAt
      = specCompositeScore (computeRecencyScore now createdAt) (computeRiskScore riskLevel)
          (computeUnresolvedScore content) (computeLearnedScore history content) ∧
    0 ≤ compute_importance_score now history content riskLevel createdAt ∧
    compute_importance_score now history content riskLevel createdAt ≤ 1 := by
  refine ⟨rfl, round3_bound_below (le_max_left _ _),
    round3_bound_above (max_le (by norm_num) (min_le_left _ _))⟩

/-! ### Claim C10: graceful degradation of the learned signal -/

/-- Claim C10: when the history collaborator is unavailable, raises, or
returns no rows, the score is still defined and equals the composite computed
with the learned component fixed at the neutral 0.5. -/
theorem importance_score_degrades_neutrally (now : ℚ) (history : History)
    (content riskLevel : List Char) (createdAt : Created)
    (h : history = History.unavailable ∨ history = History.failure
      ∨ history = History.rows []) :
    compute_importance_score now history content riskLevel createdAt
      = specCompositeScore (computeRecencyScore now createdAt) (computeRiskScore riskLevel)
          (computeUnresolvedScore content) (1 / 2) := by
  have hl : computeLearnedScore history content = 1 / 2 := by
    rcases h with rfl | rfl | rfl
    · rfl
    · by_cases hkw : (extractKeywords content).isEmpty <;> simp [computeLearnedScore, hkw]
    · by_cases hkw : (extractKeywords content).isEmpty <;> simp [computeLearnedScore, hkw]
  simp only [compute_importance_score, specCompositeScore, RECENCY_WEIGHT, RISK_LEVEL_WEIGHT,
    UNRESOLVED_ACTION_WEIGHT, LEARNED_WEIGHT, hl]

/-- Witness for C10: a concrete erroring history call. -/
theorem importance_score_degrades_neutrally_witness :
    (History.failure = History.unavailable ∨ History.failure = History.failure
      ∨ History.failure = History.rows []) ∧
    compute_importance_score 0 History.failure (r"pending review".toList) (r"low".toList)
        Created.absent
      = specCompositeScore (computeRecencyScore 0 Created.absent)
          (computeRiskScore (r"low".toList))
          (computeUnresolvedScore (r"pending review".toList)) (1 / 2) :=
  ⟨Or.inr (Or.inl rfl),
   importance_score_degrades_neutrally 0 History.failure (r"pending review".toList)
     (r"low".toList) Created.absent (Or.inr (Or.inl rfl))⟩

/-! ### Claim C8: score monotonicity -/

theorem recencyStep_anti {a b : ℚ} (h : a ≤ b) : recencyStep b ≤ recencyStep a := by
  unfold recencyStep
  split_ifs <;> linarith

/-- Claim C8: holding content, timestamp and history fixed, the score at risk
level "critical" dominates the score at "low"; and with content and risk
fixed, the recency component is monotone in the timestamp (a more recent
timestamp scores at least as high). -/
theorem importance_score_monotone (now : ℚ) (history : History) (content : List Char)
    (createdAt : Created) (t1 t2 : ℚ) (h : t1 ≤ t2) :
    compute_importance_score now history content (r"low".toList) createdAt
      ≤ compute_importance_score now history content (r"critical".toList) createdAt ∧
    computeRecencyScore now (Created.valid t1) ≤ computeRecencyScore now (Created.valid t2) := by
  constructor
  · have hlow : computeRiskScore (r"low".toList) = 2 / 10 := rfl
    have hcrit : computeRiskScore (r"critical".toList) = 1 := rfl
    refine round3_mono (clamp01_mono ?_)
    rw [hlow, hcrit]
    simp only [RECENCY_WEIGHT, RISK_LEVEL_WEIGHT, UNRESOLVED_ACTION_WEIGHT, LEARNED_WEIGHT]
    linarith
  · show recencyStep (max 0 ((now - t1) / 3600)) ≤ recencyStep (max 0 ((now - t2) / 3600))
    apply recencyStep_anti
    apply max_le_max le_rfl
    linarith

/-- Witness for C8 at concrete timestamps. -/
theorem importance_score_monotone_witness :
    ((0 : ℚ) ≤ 3600) ∧
    (compute_importance_score 0 History.unavailable ([] : List Char) (r"low".toList)
        Created.absent
      ≤ compute_importance_score 0 History.unavailable ([] : List Char) (r"critical".toList)
        Created.absent ∧
    computeRecencyScore 0 (Created.valid 0) ≤ computeRecencyScore 0 (Created.valid 3600)) :=
  ⟨by decide,
   importance_score_monotone 0 History.unavailable ([] : List Char) Created.absent 0 3600
     (by decide)⟩

/-! ### Claim C2 machinery: numbering inside the redaction map -/

/-- The current per-category counter (`entity_counts.get(entity_type, 0)`). -/
def cntOf (m : RedactionMap) (c : List Char) : Nat := (lookupL m.entityCounts c).getD 0

theorem add_reuse (m : RedactionMap) (v c p : List Char)
    (h : lookupL m.forward v = some p) : m.add v c = (m, p) := by
  simp [RedactionMap.add, h]

theorem add_fresh (m : RedactionMap) (v c : List Char)
    (h : lookupL m.forward v = none) :
    m.add v c
      = ({ m with
            forward := m.forward ++ [(v, mkPlaceholder c (cntOf m c + 1))],
            reverse := m.reverse ++ [(mkPlaceholder c (cntOf m c + 1), v)],
            entityCounts := setL m.entityCounts c (cntOf m c + 1) },
         mkPlaceholder c (cntOf m c + 1)) := by
  simp [RedactionMap.add, h, cntOf]

theorem applyAll_fst (l : List Span) : ∀ (m : RedactionMap) (t : List Char),
    (applyAll m t l).1 = addAll m l := by
  induction l with
  | nil => intro m t; rfl
  | cons sp rest ih => intro m t; simp [applyAll, addAll, ih]

theorem addAll_append (xs ys : List Span) :
    ∀ m, addAll m (xs ++ ys) = addAll (addAll m xs) ys := by
  induction xs with
  | nil => intro m; rfl
  | cons sp rest ih => intro m; simp [addAll, ih]

theorem add_forward_extend (m : RedactionMap) (v c : List Char) :
    ∃ ext, (m.add v c).1.forward = m.forward ++ ext := by
  cases h : lookupL m.forward v with
  | some p => exact ⟨[], by simp [add_reuse m v c p h]⟩
  | none => exact ⟨[(v, mkPlaceholder c (cntOf m c + 1))], by rw [add_fresh m v c h]⟩

theorem addAll_forward_extend (l : List Span) :
    ∀ m, ∃ ext, (addAll m l).forward = m.forward ++ ext := by
  induction l with
  | nil => intro m; exact ⟨[], by simp [addAll]⟩
  | cons sp rest ih =>
    intro m
    obtain ⟨e1, he1⟩ := add_forward_extend m sp.val sp.cat
    obtain ⟨e2, he2⟩ := ih (m.add sp.val sp.cat).1
    exact ⟨e1 ++ e2, by rw [addAll, he2, he1, List.append_assoc]⟩

theorem addAll_lookup_persist {m : RedactionMap} {v p : List Char} (l : List Span)
    (h : lookupL m.forward v = some p) : lookupL (addAll m l).forward v = some p := by
  obtain ⟨ext, hext⟩ := addAll_forward_extend l m
  rw [hext]
  exact lookupL_append_some ext h

theorem add_lookup_none {m : RedactionMap} {v : List Char} (w c : List Char)
    (h : lookupL m.forward v = none) (hne : w ≠ v) :
    lookupL (m.add w c).1.forward v = none := by
  cases hw : lookupL m.forward w with
  | some p => rw [add_reuse m w c p hw]; exact h
  | none =>
    rw [add_fresh m w c hw]
    rw [lookupL_append_none _ h]
    simp [lookupL, hne]

theorem addAll_lookup_none {v : List Char} (l : List Span)
    (hnot : v ∉ l.map Span.val) :
    ∀ {m : RedactionMap}, lookupL m.forward v = none →
      lookupL (addAll m l).forward v = none := by
  induction l with
  | nil => intro m h; exact h
  | cons sp rest ih =>
    intro m h
    simp only [List.map_cons, List.mem_cons] at hnot
    push_neg at hnot
    exact ih hnot.2 (add_lookup_none sp.val sp.cat h (fun he => hnot.1 he.symm))

theorem add_cnt_le (m : RedactionMap) (v c c' : List Char) :
    cntOf m c' ≤ cntOf (m.add v c).1 c' := by
  cases h : lookupL m.forward v with
  | some p => rw [add_reuse m v c p h]
  | none =>
    rw [add_fresh m v c h]
    unfold cntOf
    by_cases hc : c' = c
    · subst hc
      simp [lookupL_setL_self]
    · simp [lookupL_setL_other _ _ _ _ hc]

theorem addAll_cnt_le (l : List Span) : ∀ (m : RedactionMap) (c : List Char),
    cntOf m c ≤ cntOf (addAll m l) c := by
  induction l with
  | nil => intro m c; exact le_rfl
  | cons sp rest ih =>
    intro m c
    exact le_trans (add_cnt_le m sp.val sp.cat c) (ih _ c)

theorem add_fresh_lookup (m : RedactionMap) (v c : List Char)
    (h : lookupL m.forward v = none) :
    lookupL (m.add v c).1.forward v = some (mkPlaceholder c (cntOf m c + 1)) ∧
    cntOf (m.add v c).1 c = cntOf m c + 1 := by
  rw [add_fresh m v c h]
  constructor
  · rw [lookupL_append_none _ h]
    simp [lookupL]
  · unfold cntOf
    simp [lookupL_setL_self]

/-! ### Sortedness of the processing order -/

theorem mem_insertDesc {z x : Span} {l : List Span} :
    z ∈ insertDesc x l ↔ z = x ∨ z ∈ l := by
  induction l with
  | nil => simp [insertDesc]
  | cons y ys ih =>
    by_cases h : y.start ≤ x.start
    · simp [insertDesc, h]
    · simp [insertDesc, h, ih]
      tauto

theorem insertDesc_pairwise {x : Span} {l : List Span}
    (h : l.Pairwise (fun u w => w.start ≤ u.start)) :
    (insertDesc x l).Pairwise (fun u w => w.start ≤ u.start) := by
  induction l with
  | nil => simp [insertDesc]
  | cons y ys ih =>
    rcases List.pairwise_cons.mp h with ⟨hy, hys⟩
    by_cases hc : y.start ≤ x.start
    · rw [insertDesc, if_pos hc]
      refine List.pairwise_cons.mpr ⟨?_, h⟩
      intro z hz
      rcases List.mem_cons.mp hz with rfl | hz'
      · exact hc
      · exact le_trans (hy z hz') hc
    · rw [insertDesc, if_neg hc]
      refine List.pairwise_cons.mpr ⟨?_, ih hys⟩
      intro z hz
      rcases mem_insertDesc.mp hz with rfl | hz'
      · exact le_of_not_le hc
      · exact hy z hz'

theorem sortDesc_pairwise (l : List Span) :
    (sortDesc l).Pairwise (fun u w => w.start ≤ u.start) := by
  induction l with
  | nil => exact List.Pairwise.nil
  | cons x xs ih => exact insertDesc_pairwise ih

theorem filterOvGo_pairwise_of {R : Span → Span → Prop} (l : List Span) :
    ∀ acc, acc.Pairwise R → l.Pairwise R → (∀ e ∈ acc, ∀ m ∈ l, R e m) →
    (filterOvGo acc l).Pairwise R := by
  induction l with
  | nil => intro acc h _ _; exact h
  | cons m rest ih =>
    intro acc hacc hl hcross
    rcases List.pairwise_cons.mp hl with ⟨hm, hrest⟩
    by_cases hov : overlapsAny acc m
    · simp only [filterOvGo, hov, if_true]
      exact ih acc hacc hrest (fun e he m' hm' => hcross e he m' (List.mem_cons_of_mem _ hm'))
    · have hov' : overlapsAny acc m = false := by simpa using hov
      simp only [filterOvGo, hov', if_false, Bool.false_eq_true]
      refine ih (acc ++ [m]) ?_ hrest ?_
      · rw [List.pairwise_append]
        refine ⟨hacc, List.pairwise_singleton _ _, ?_⟩
        intro e he b hb
        rw [List.mem_singleton] at hb
        rw [hb]
        exact hcross e he m (List.mem_cons_self _ _)
      · intro e he m' hm'
        rcases List.mem_append.mp he with he' | he'
        · exact hcross e he' m' (List.mem_cons_of_mem _ hm')
        · rw [List.mem_singleton] at he'
          subst he'
          exact hm m' hm'

theorem keptSpans_sorted (text : List Char) :
    (keptSpans text).Pairwise (fun u w => w.start ≤ u.start) :=
  filterOvGo_pairwise_of _ [] List.Pairwise.nil (sortDesc_pairwise _)
    (fun e he => absurd he (List.not_mem_nil e))

/-! ### Claim C2: numbering order -/

theorem findAll_ne_of_kept {text : List Char} (h : keptSpans text ≠ []) :
    (findAll text).isEmpty = false := by
  cases hf : findAll text with
  | nil =>
    exfalso
    apply h
    unfold keptSpans
    rw [hf]
    rfl
  | cons a l => rfl

theorem redact_map_eq (store : Store) (newId text : List Char)
    (hws : text.all isPySpace = false) (hne : (findAll text).isEmpty = false) :
    (redact store newId text).2.1 = addAll (RedactionMap.mkEmpty newId) (keptSpans text) := by
  simp [redact, hws, hne, applyAll_fst]

theorem add_lookup_persist {m : RedactionMap} {v p : List Char} (w c : List Char)
    (h : lookupL m.forward v = some p) : lookupL (m.add w c).1.forward v = some p := by
  obtain ⟨ext, hext⟩ := add_forward_extend m w c
  rw [hext]
  exact lookupL_append_some ext h

/-- Claim C2 (amended): within one redact call a repeated identical value
reuses its existing placeholder (third conjunct: the reuse law of `add`); and
two distinct fresh values of the same category receive strictly increasing
ordinals in processing order, where the processing order is the kept-span
list, which is ordered by start offset descending (second conjunct).  Thus
ordinals increase in order of first processing — from the end of the text
backwards — not in order of first appearance in the input text. -/
theorem redact_numbering_processing_order (store : Store) (newId text : List Char)
    (l1 l2 l3 : List Span) (a b : Span)
    (hsplit : keptSpans text = l1 ++ a :: (l2 ++ b :: l3))
    (hcat : b.cat = a.cat) (hvne : a.val ≠ b.val)
    (ha : a.val ∉ l1.map Span.val)
    (hb : b.val ∉ (l1 ++ a :: l2).map Span.val)
    (hws : text.all isPySpace = false) :
    (∃ n n', lookupL (redact store newId text).2.1.forward a.val
        = some (mkPlaceholder a.cat n) ∧
      lookupL (redact store newId text).2.1.forward b.val
        = some (mkPlaceholder a.cat n') ∧ n < n') ∧
    (keptSpans text).Pairwise (fun u w => w.start ≤ u.start) ∧
    (∀ (m : RedactionMap) (v c p : List Char),
      lookupL m.forward v = some p → m.add v c = (m, p)) := by
  refine ⟨?_, keptSpans_sorted text, fun m v c p h => add_reuse m v c p h⟩
  have hknil : keptSpans text ≠ [] := by
    rw [hsplit]
    simp
  rw [redact_map_eq store newId text hws (findAll_ne_of_kept hknil), hsplit]
  have hbsplit : b.val ∉ l1.map Span.val ∧ b.val ≠ a.val ∧ b.val ∉ l2.map Span.val := by
    simp only [List.map_append, List.map_cons, List.mem_append, List.mem_cons] at hb
    push_neg at hb
    exact ⟨hb.1, hb.2.1, hb.2.2⟩
  rw [addAll_append]
  have hfa : lookupL (addAll (RedactionMap.mkEmpty newId) l1).forward a.val = none :=
    addAll_lookup_none l1 ha rfl
  obtain ⟨hlooka, hcnta⟩ :=
    add_fresh_lookup (addAll (RedactionMap.mkEmpty newId) l1) a.val a.cat hfa
  rw [show addAll (addAll (RedactionMap.mkEmpty newId) l1) (a :: (l2 ++ b :: l3))
      = addAll ((addAll (RedactionMap.mkEmpty newId) l1).add a.val a.cat).1 (l2 ++ b :: l3)
    from rfl]
  rw [addAll_append]
  have hfb2 : lookupL ((addAll (RedactionMap.mkEmpty newId) l1).add a.val a.cat).1.forward
      b.val = none :=
    add_lookup_none a.val a.cat (addAll_lookup_none l1 hbsplit.1 rfl) hvne
  have hfb3 : lookupL (addAll ((addAll (RedactionMap.mkEmpty newId) l1).add a.val a.cat).1
      l2).forward b.val = none :=
    addAll_lookup_none l2 hbsplit.2.2 hfb2
  obtain ⟨hlookb, _⟩ :=
    add_fresh_lookup (addAll ((addAll (RedactionMap.mkEmpty newId) l1).add a.val a.cat).1 l2)
      b.val b.cat hfb3
  rw [hcat] at hlookb
  rw [show addAll (addAll ((addAll (RedactionMap.mkEmpty newId) l1).add a.val a.cat).1 l2)
        (b :: l3)
      = addAll ((addAll ((addAll (RedactionMap.mkEmpty newId) l1).add a.val a.cat).1 l2).add
          b.val b.cat).1 l3
    from rfl]
  rw [hcat]
  refine ⟨cntOf (addAll (RedactionMap.mkEmpty newId) l1) a.cat + 1,
    cntOf (addAll ((addAll (RedactionMap.mkEmpty newId) l1).add a.val a.cat).1 l2) a.cat + 1,
    ?_, ?_, ?_⟩
  · exact addAll_lookup_persist l3
      (add_lookup_persist b.val a.cat (addAll_lookup_persist l2 hlooka))
  · exact addAll_lookup_persist l3 hlookb
  · have hmono : cntOf ((addAll (RedactionMap.mkEmpty newId) l1).add a.val a.cat).1 a.cat
        ≤ cntOf (addAll ((addAll (RedactionMap.mkEmpty newId) l1).add a.val a.cat).1 l2)
            a.cat :=
      addAll_cnt_le l2 _ a.cat
    omega

/-- The concrete input of the C2 counterexample and witness: two distinct
NRIC values, so both spans carry category `SG_NRIC`. -/
def exTextC2 : List Char := r"S1111111A T2222222B".toList

/-- Counterexample to claim C2 as stated: in `"S1111111A T2222222B"` the value
`S1111111A` is the first distinct `SG_NRIC` value in order of appearance in
the input, so the claim requires placeholder `<SG_NRIC_1>` for it; the code
numbers in descending start order and gives it `<SG_NRIC_2>`, while the later
value `T2222222B` receives `<SG_NRIC_1>`. -/
theorem redact_numbering_counterexample :
    ¬ (lookupL (redact ([] : Store) (r"m1".toList) exTextC2).2.1.forward
        (r"S1111111A".toList) = some (mkPlaceholder catNRIC 1)) ∧
    lookupL (redact ([] : Store) (r"m1".toList) exTextC2).2.1.forward
        (r"S1111111A".toList) = some (mkPlaceholder catNRIC 2) ∧
    lookupL (redact ([] : Store) (r"m1".toList) exTextC2).2.1.forward
        (r"T2222222B".toList) = some (mkPlaceholder catNRIC 1) := by
  refine ⟨?_, ?_, ?_⟩ <;> decide

/-- The two kept spans of `exTextC2`, in processing order. -/
def spanC2a : Span := ⟨10, 19, catNRIC, r"T2222222B".toList⟩

/-- The later-processed kept span of `exTextC2`. -/
def spanC2b : Span := ⟨0, 9, catNRIC, r"S1111111A".toList⟩

/-- Witness for the amended C2 theorem at the concrete split of `exTextC2`. -/
theorem redact_numbering_processing_order_witness :
    (keptSpans exTextC2 = [] ++ spanC2a :: ([] ++ spanC2b :: []) ∧
     spanC2b.cat = spanC2a.cat ∧ spanC2a.val ≠ spanC2b.val ∧
     spanC2a.val ∉ ([] : List Span).map Span.val ∧
     spanC2b.val ∉ (([] : List Span) ++ spanC2a :: []).map Span.val ∧
     exTextC2.all isPySpace = false) ∧
    ((∃ n n', lookupL (redact ([] : Store) (r"m1".toList) exTextC2).2.1.forward spanC2a.val
        = some (mkPlaceholder spanC2a.cat n) ∧
      lookupL (redact ([] : Store) (r"m1".toList) exTextC2).2.1.forward spanC2b.val
        = some (mkPlaceholder spanC2a.cat n') ∧ n < n') ∧
    (keptSpans exTextC2).Pairwise (fun u w => w.start ≤ u.start) ∧
    (∀ (m : RedactionMap) (v c p : List Char),
      lookupL m.forward v = some p → m.add v c = (m, p))) :=
  ⟨⟨by decide, by decide, by decide, by decide, by decide, by decide⟩,
   redact_numbering_processing_order ([] : Store) (r"m1".toList) exTextC2 [] [] [] spanC2a
     spanC2b (by decide) (by decide) (by decide) (by decide) (by decide) (by decide)⟩

/-! ### Claim C1 machinery, part 1: decimal digits and placeholder shape -/

/-- No `<` character occurs in `s` (the delimiter opening every placeholder). -/
def NoLt (s : List Char) : Prop := ∀ c ∈ s, c ≠ '<'

/-- A well-shaped placeholder: an opening `<`, a body free of both angle
brackets, and a closing `>`. -/
def PhShape (p : List Char) : Prop :=
  ∃ body, p = '<' :: (body ++ ['>']) ∧ ∀ c ∈ body, c ≠ '<' ∧ c ≠ '>'

theorem digitVal_digitChar {n : Nat} (h : n < 10) : digitVal (Nat.digitChar n) = n := by
  interval_cases n <;> decide

theorem digitChar_not_angle {n : Nat} (h : n < 10) :
    Nat.digitChar n ≠ '<' ∧ Nat.digitChar n ≠ '>' := by
  interval_cases n <;> decide

theorem digitsToNat_append (l : List Char) (c : Char) :
    digitsToNat (l ++ [c]) = 10 * digitsToNat l + digitVal c := by
  unfold digitsToNat
  rw [List.foldl_append]
  rfl

theorem digitsToNat_natDigitsAux (fuel : Nat) :
    ∀ n, n < 10 ^ fuel → digitsToNat (natDigitsAux fuel n) = n := by
  induction fuel with
  | zero =>
    intro n h
    have : n = 0 := by simpa using Nat.lt_one_iff.mp (by simpa using h)
    subst this
    rfl
  | succ fuel ih =>
    intro n h
    by_cases hn : n < 10
    · rw [natDigitsAux, if_pos hn]
      show digitsToNat ([] ++ [Nat.digitChar n]) = n
      rw [digitsToNat_append]
      simp [digitsToNat, digitVal_digitChar hn]
    · rw [natDigitsAux, if_neg hn]
      rw [digitsToNat_append]
      have hdiv : n / 10 < 10 ^ fuel := by
        rw [Nat.div_lt_iff_lt_mul (by norm_num)]
        rw [pow_succ] at h
        exact h
      rw [ih _ hdiv, digitVal_digitChar (Nat.mod_lt n (by norm_num))]
      omega

theorem natDigits_inj {a b : Nat} (h : natDigits a = natDigits b) : a = b := by
  have hpow : ∀ n : Nat, n < 10 ^ (n + 1) := by
    intro n
    calc n < 10 ^ n := Nat.lt_pow_self (by norm_num) n
    _ ≤ 10 ^ (n + 1) := Nat.pow_le_pow_right (by norm_num) (Nat.le_succ n)
  have ha := digitsToNat_natDigitsAux (a + 1) a (hpow a)
  have hb := digitsToNat_natDigitsAux (b + 1) b (hpow b)
  unfold natDigits at h
  rw [← ha, ← hb, h]

theorem natDigits_not_angle (n : Nat) : ∀ c ∈ natDigits n, c ≠ '<' ∧ c ≠ '>' := by
  unfold natDigits
  generalize n + 1 = fuel
  induction fuel generalizing n with
  | zero => intro c hc; simp [natDigitsAux] at hc
  | succ fuel ih =>
    intro c hc
    rw [natDigitsAux] at hc
    by_cases hn : n < 10
    · rw [if_pos hn] at hc
      rw [List.mem_singleton] at hc
      subst hc
      exact digitChar_not_angle hn
    · rw [if_neg hn] at hc
      rcases List.mem_append.mp hc with h' | h'
      · exact ih (n / 10) c h'
      · rw [List.mem_singleton] at h'
        subst h'
        exact digitChar_not_angle (Nat.mod_lt n (by norm_num))

/-- The eight registry category labels contain no angle bracket. -/
theorem catNames_no_angle : ∀ cat ∈ catNames, ∀ ch ∈ cat, ch ≠ '<' ∧ ch ≠ '>' := by
  decide

theorem mkPlaceholder_shape {c : List Char} (hc : c ∈ catNames) (n : Nat) :
    PhShape (mkPlaceholder c n) := by
  refine ⟨c ++ '_' :: natDigits n, ?_, ?_⟩
  · unfold mkPlaceholder
    simp
  · intro ch hch
    rcases List.mem_append.mp hch with h' | h'
    · exact catNames_no_angle c hc ch h'
    · rcases List.mem_cons.mp h' with rfl | h''
      · exact ⟨by decide, by decide⟩
      · exact natDigits_not_angle n ch h''

theorem mkPlaceholder_inj_cat {c : List Char} {n m : Nat}
    (h : mkPlaceholder c n = mkPlaceholder c m) : n = m := by
  unfold mkPlaceholder at h
  have h1 : c ++ '_' :: (natDigits n ++ ['>']) = c ++ '_' :: (natDigits m ++ ['>']) :=
    (List.cons.inj h).2
  have h2 : natDigits n ++ ['>'] = natDigits m ++ ['>'] :=
    (List.cons.inj (List.append_cancel_left h1)).2
  exact natDigits_inj (List.append_cancel_right h2)

theorem mkPlaceholder_ne_of_cat_ne {c c' : List Char} (hc : c ∈ catNames)
    (hc' : c' ∈ catNames) (hne : c ≠ c') (n m : Nat) :
    mkPlaceholder c n ≠ mkPlaceholder c' m := by
  simp only [catNames, List.mem_cons, List.not_mem_nil, or_false] at hc hc'
  rcases hc with rfl | rfl | rfl | rfl | rfl | rfl | rfl | rfl <;>
    rcases hc' with rfl | rfl | rfl | rfl | rfl | rfl | rfl | rfl <;>
    first
      | exact absurd rfl hne
      | (intro heq
         simp [mkPlaceholder, catNRIC, catPhone, catMRN, catEmail, catCard, catIPAddr,
           catUrl, catDate] at heq)

/-! ### Claim C1 machinery, part 2: the map invariant -/

theorem lookupL_some_mem {β : Type} {l : List (List Char × β)} {k : List Char} {v : β}
    (h : lookupL l k = some v) : (k, v) ∈ l := by
  induction l with
  | nil => simp [lookupL] at h
  | cons hd tl ih =>
    obtain ⟨k', v'⟩ := hd
    by_cases hk : k' = k
    · subst hk
      rw [lookupL, if_pos rfl] at h
      injection h with h
      subst h
      exact List.mem_cons_self _ _
    · rw [lookupL, if_neg hk] at h
      exact List.mem_cons_of_mem _ (ih h)

theorem lookupL_none_not_mem {β : Type} {l : List (List Char × β)} {k : List Char}
    (h : lookupL l k = none) : ∀ v : β, (k, v) ∉ l := by
  induction l with
  | nil => intro v hv; exact List.not_mem_nil _ hv
  | cons hd tl ih =>
    obtain ⟨k', v'⟩ := hd
    intro v hv
    by_cases hk : k' = k
    · rw [lookupL, if_pos hk] at h
      exact Option.noConfusion h
    · rw [lookupL, if_neg hk] at h
      rcases List.mem_cons.mp hv with heq | hmem
      · exact hk (congrArg Prod.fst heq).symm
      · exact ih h v hmem

theorem nodup_keys_functional {β : Type} {l : List (List Char × β)}
    (hnd : (l.map (fun e : List Char × β => e.1)).Nodup) {k : List Char} {a b : β}
    (ha : (k, a) ∈ l) (hb : (k, b) ∈ l) : a = b := by
  induction l with
  | nil => exact absurd ha (List.not_mem_nil _)
  | cons hd tl ih =>
    rw [List.map_cons] at hnd
    have hnd1 := (List.nodup_cons.mp hnd).1
    have hnd2 := (List.nodup_cons.mp hnd).2
    rcases List.mem_cons.mp ha with rfl | ha'
    · rcases List.mem_cons.mp hb with hb' | hb'
      · exact ((Prod.mk.injEq _ _ _ _).mp hb').2.symm
      · exact absurd (List.mem_map.mpr ⟨(k, b), hb', rfl⟩) hnd1
    · rcases List.mem_cons.mp hb with hb' | hb'
      · rw [← hb'] at hnd1
        exact absurd (List.mem_map.mpr ⟨(k, a), ha', rfl⟩) hnd1
      · exact ih hnd2 ha' hb'

/-- The invariant maintained by `RedactionMap.add` during a redact call:
`reverse` mirrors `forward`; every stored placeholder is `<cat_n>` for a
registry category and an in-range ordinal; stored placeholders and values are
pairwise distinct; stored values are free of the placeholder delimiter. -/
structure MapInv (m : RedactionMap) : Prop where
  rev_eq : m.reverse = m.forward.map (fun e => (e.2, e.1))
  shapes : ∀ e ∈ m.forward, ∃ c n, c ∈ catNames ∧ 1 ≤ n ∧ n ≤ cntOf m c
    ∧ e.2 = mkPlaceholder c n
  ph_nodup : (m.forward.map (fun e : List Char × List Char => e.2)).Nodup
  val_nodup : (m.forward.map (fun e : List Char × List Char => e.1)).Nodup
  vals_noLt : ∀ e ∈ m.forward, NoLt e.1

theorem mapInv_empty (newId : List Char) : MapInv (RedactionMap.mkEmpty newId) := by
  constructor <;> simp [RedactionMap.mkEmpty]

theorem add_fresh_fields (m : RedactionMap) (v c : List Char)
    (h : lookupL m.forward v = none) :
    (m.add v c).1.forward = m.forward ++ [(v, mkPlaceholder c (cntOf m c + 1))] ∧
    (m.add v c).1.reverse = m.reverse ++ [(mkPlaceholder c (cntOf m c + 1), v)] ∧
    (m.add v c).1.entityCounts = setL m.entityCounts c (cntOf m c + 1) := by
  rw [add_fresh m v c h]
  exact ⟨rfl, rfl, rfl⟩

theorem add_fresh_cnt (m : RedactionMap) (v c c' : List Char)
    (h : lookupL m.forward v = none) :
    cntOf (m.add v c).1 c' = if c' = c then cntOf m c + 1 else cntOf m c' := by
  obtain ⟨-, -, hE⟩ := add_fresh_fields m v c h
  unfold cntOf
  rw [hE]
  by_cases hc : c' = c
  · subst hc
    rw [lookupL_setL_self, if_pos rfl]
    rfl
  · rw [lookupL_setL_other _ _ _ _ hc, if_neg hc]

theorem mapInv_add {m : RedactionMap} (inv : MapInv m) {v c : List Char}
    (hc : c ∈ catNames) (hv : NoLt v) : MapInv (m.add v c).1 := by
  cases h : lookupL m.forward v with
  | some p =>
    rw [add_reuse m v c p h]
    exact inv
  | none =>
    obtain ⟨hF, hR, hE⟩ := add_fresh_fields m v c h
    constructor
    · rw [hR, hF, inv.rev_eq, List.map_append]
      rfl
    · intro e he
      rw [hF] at he
      rcases List.mem_append.mp he with he' | he'
      · obtain ⟨c0, n0, hc0, hn1, hncnt, hph⟩ := inv.shapes e he'
        refine ⟨c0, n0, hc0, hn1, ?_, hph⟩
        rw [add_fresh_cnt m v c c0 h]
        by_cases hcc : c0 = c
        · subst hcc
          rw [if_pos rfl]
          omega
        · rw [if_neg hcc]
          exact hncnt
      · rw [List.mem_singleton] at he'
        subst he'
        refine ⟨c, cntOf m c + 1, hc, by omega, ?_, rfl⟩
        rw [add_fresh_cnt m v c c h, if_pos rfl]
    · rw [hF, List.map_append]
      refine List.Nodup.append inv.ph_nodup (by simp) ?_
      intro p hp hp1
      simp only [List.map_cons, List.map_nil, List.mem_singleton] at hp1
      subst hp1
      obtain ⟨e, he, hpe⟩ := List.mem_map.mp hp
      obtain ⟨c0, n0, hc0, hn1, hncnt, hph⟩ := inv.shapes e he
      rw [hph] at hpe
      by_cases hcc : c0 = c
      · subst hcc
        have := mkPlaceholder_inj_cat hpe
        omega
      · exact mkPlaceholder_ne_of_cat_ne hc0 hc hcc n0 _ hpe
    · rw [hF, List.map_append]
      refine List.Nodup.append inv.val_nodup (by simp) ?_
      intro w hw hw1
      simp only [List.map_cons, List.map_nil, List.mem_singleton] at hw1
      obtain ⟨e, he, hwe⟩ := List.mem_map.mp hw
      have hmem : (w, e.2) ∈ m.forward := by
        rw [show (w, e.2) = e from Prod.ext hwe.symm rfl]
        exact he
      rw [hw1] at hmem
      exact lookupL_none_not_mem h e.2 hmem
    · intro e he
      rw [hF] at he
      rcases List.mem_append.mp he with he' | he'
      · exact inv.vals_noLt e he'
      · rw [List.mem_singleton] at he'
        subst he'
        exact hv

theorem mapInv_addAll (l : List Span) :
    ∀ m, MapInv m → (∀ sp ∈ l, sp.cat ∈ catNames ∧ NoLt sp.val) → MapInv (addAll m l) := by
  induction l with
  | nil => intro m inv _; exact inv
  | cons sp rest ih =>
    intro m inv hl
    exact ih _
      (mapInv_add inv (hl sp (List.mem_cons_self _ _)).1 (hl sp (List.mem_cons_self _ _)).2)
      (fun s hs => hl s (List.mem_cons_of_mem _ hs))

/-! ### Claim C1 machinery, part 3: match-length bounds -/

/-- A continuation never reports more characters than its suffix holds. -/
def KBound (k : K) : Prop := ∀ cs r, k cs = some r → r ≤ cs.length

theorem kEnd_bound : KBound kEnd := by
  intro cs r h
  injection h with h
  omega

theorem bAfter_bound : KBound bAfter := by
  intro cs r h
  cases cs with
  | nil =>
    injection h with h
    omega
  | cons c cs' =>
    rw [bAfter] at h
    split at h
    · exact Option.noConfusion h
    · injection h with h
      omega

theorem kChar_bound {p : Char → Bool} {k : K} (hk : KBound k) : KBound (kChar p k) := by
  intro cs r h
  cases cs with
  | nil => exact Option.noConfusion h
  | cons c cs' =>
    rw [kChar] at h
    split at h
    · cases hx : k cs' with
      | some n =>
        rw [hx] at h
        injection h with h
        have := hk cs' n hx
        simp only [List.length_cons]
        omega
      | none =>
        rw [hx] at h
        exact Option.noConfusion h
    · exact Option.noConfusion h

theorem kOpt_bound {p : Char → Bool} {k : K} (hk : KBound k) : KBound (kOpt p k) := by
  intro cs r h
  cases cs with
  | nil => exact hk [] r h
  | cons c cs' =>
    rw [kOpt] at h
    split at h
    · cases hx : k cs' with
      | some n =>
        rw [hx] at h
        injection h with h
        have := hk cs' n hx
        simp only [List.length_cons]
        omega
      | none =>
        rw [hx] at h
        have := hk _ r h
        exact this
    · exact hk _ r h

theorem consume_length {p : Char → Bool} :
    ∀ (n : Nat) (cs rest : List Char), consume p n cs = some rest →
      n + rest.length = cs.length := by
  intro n
  induction n with
  | zero =>
    intro cs rest h
    rw [consume] at h
    injection h with h
    subst h
    omega
  | succ n ih =>
    intro cs rest h
    cases cs with
    | nil => exact Option.noConfusion h
    | cons c cs' =>
      rw [consume] at h
      split at h
      · have := ih cs' rest h
        simp only [List.length_cons]
        omega
      · exact Option.noConfusion h

theorem kRepsAux_bound {p : Char → Bool} {k : K} (hk : KBound k) (lo : Nat) (cs : List Char) :
    ∀ (tryN r : Nat), kRepsAux p k lo cs tryN = some r → r ≤ cs.length := by
  intro tryN
  induction tryN with
  | zero =>
    intro r h
    rw [kRepsAux] at h
    split at h
    · exact hk cs r h
    · exact Option.noConfusion h
  | succ n ih =>
    intro r h
    rw [kRepsAux] at h
    cases hx : (if lo ≤ n + 1 then
        match consume p (n + 1) cs with
        | some rest =>
          match k rest with
          | some m => some (n + 1 + m)
          | none => none
        | none => none
      else none) with
    | some rx =>
      rw [hx] at h
      simp only [Option.orElse] at h
      injection h with h
      subst h
      split at hx
      · cases hc : consume p (n + 1) cs with
        | some rest =>
          rw [hc] at hx
          dsimp only at hx
          cases hkk : k rest with
          | some m =>
            rw [hkk] at hx
            dsimp only at hx
            injection hx with hx
            have h1 := consume_length (n + 1) cs rest hc
            have h2 := hk rest m hkk
            omega
          | none =>
            rw [hkk] at hx
            dsimp only at hx
            exact Option.noConfusion hx
        | none =>
          rw [hc] at hx
          dsimp only at hx
          exact Option.noConfusion hx
      · exact Option.noConfusion hx
    | none =>
      rw [hx] at h
      simp only [Option.orElse] at h
      exact ih r h

theorem kReps_bound {p : Char → Bool} {lo hi : Nat} {k : K} (hk : KBound k) :
    KBound (kReps p lo hi k) :=
  fun cs r h => kRepsAux_bound hk lo cs hi r h

theorem kRepsLen_bound {p : Char → Bool} {lo : Nat} {k : K} (hk : KBound k) :
    KBound (fun cs => kReps p lo cs.length k cs) :=
  fun cs r h => kRepsAux_bound hk lo cs cs.length r h

/-- A matcher never reports more characters than its suffix holds. -/
def MBound (f : Matcher) : Prop := ∀ prev cs r, f prev cs = some r → r ≤ cs.length

theorem tryNRIC_bound : MBound tryNRIC := by
  intro prev cs r h
  rw [tryNRIC] at h
  split at h
  · exact kChar_bound (kReps_bound (kChar_bound bAfter_bound)) cs r h
  · exact Option.noConfusion h

theorem tryPhoneMobile_bound : MBound tryPhoneMobile := by
  intro prev cs r h
  rw [tryPhoneMobile] at h
  split at h
  · exact kChar_bound (kReps_bound bAfter_bound) cs r h
  · exact Option.noConfusion h

theorem tryPhoneLandline_bound : MBound tryPhoneLandline := by
  intro prev cs r h
  rw [tryPhoneLandline] at h
  split at h
  · exact kChar_bound (kReps_bound bAfter_bound) cs r h
  · exact Option.noConfusion h

theorem tryPhonePrefixed_bound : MBound tryPhonePrefixed := by
  intro prev cs r h
  rw [tryPhonePrefixed] at h
  split at h
  · exact kChar_bound (kChar_bound (kChar_bound (kOpt_bound (kChar_bound
      (kReps_bound bAfter_bound))))) cs r h
  · exact Option.noConfusion h

theorem tryMRN_bound : MBound tryMRN := by
  intro prev cs r h
  rw [tryMRN] at h
  split at h
  · exact kChar_bound (kChar_bound (kChar_bound (kOpt_bound
      (kReps_bound bAfter_bound)))) cs r h
  · exact Option.noConfusion h

theorem tryEmail_bound : MBound tryEmail := by
  intro prev cs r h
  rw [tryEmail] at h
  split at h
  · exact kRepsLen_bound (kChar_bound (kRepsLen_bound (kChar_bound
      (kRepsLen_bound bAfter_bound)))) cs r h
  · exact Option.noConfusion h

theorem tryCard_bound : MBound tryCard := by
  intro prev cs r h
  rw [tryCard] at h
  split at h
  · exact kReps_bound (kOpt_bound (kReps_bound (kOpt_bound (kReps_bound
      (kOpt_bound (kReps_bound bAfter_bound)))))) cs r h
  · exact Option.noConfusion h

theorem tryIPv4Addr_bound : MBound tryIPv4Addr := by
  intro prev cs r h
  rw [tryIPv4Addr] at h
  split at h
  · exact kReps_bound (kChar_bound (kReps_bound (kChar_bound (kReps_bound
      (kChar_bound (kReps_bound bAfter_bound)))))) cs r h
  · exact Option.noConfusion h

theorem tryUrl_bound : MBound tryUrl := by
  intro prev cs r h
  rw [tryUrl] at h
  exact kChar_bound (kChar_bound (kChar_bound (kChar_bound (kOpt_bound (kChar_bound
    (kChar_bound (kChar_bound (kRepsLen_bound kEnd_bound)))))))) cs r h

theorem tryDateSlash_bound : MBound tryDateSlash := by
  intro prev cs r h
  rw [tryDateSlash] at h
  split at h
  · exact kReps_bound (kChar_bound (kReps_bound (kChar_bound
      (kReps_bound bAfter_bound)))) cs r h
  · exact Option.noConfusion h

theorem tryDateIso_bound : MBound tryDateIso := by
  intro prev cs r h
  rw [tryDateIso] at h
  split at h
  · exact kReps_bound (kChar_bound (kReps_bound (kChar_bound
      (kReps_bound bAfter_bound)))) cs r h
  · exact Option.noConfusion h

theorem patterns_bound : ∀ pc ∈ PATTERNS, MBound pc.1 ∧ pc.2 ∈ catNames := by
  intro pc hpc
  rw [PATTERNS] at hpc
  simp only [List.mem_cons, List.not_mem_nil, or_false] at hpc
  rcases hpc with rfl | rfl | rfl | rfl | rfl | rfl | rfl | rfl | rfl | rfl | rfl
  · exact ⟨tryNRIC_bound, by simp [catNames]⟩
  · exact ⟨tryPhoneMobile_bound, by simp [catNames]⟩
  · exact ⟨tryPhoneLandline_bound, by simp [catNames]⟩
  · exact ⟨tryPhonePrefixed_bound, by simp [catNames]⟩
  · exact ⟨tryMRN_bound, by simp [catNames]⟩
  · exact ⟨tryEmail_bound, by simp [catNames]⟩
  · exact ⟨tryCard_bound, by simp [catNames]⟩
  · exact ⟨tryIPv4Addr_bound, by simp [catNames]⟩
  · exact ⟨tryUrl_bound, by simp [catNames]⟩
  · exact ⟨tryDateSlash_bound, by simp [catNames]⟩
  · exact ⟨tryDateIso_bound, by simp [catNames]⟩

/-! ### Claim C1 machinery, part 4: well-formed spans from the scanner -/

/-- A collected span is well formed for a text: positive width, within
bounds, and its value is exactly the text slice it covers. -/
def SpanWf (text : List Char) (sp : Span) : Prop :=
  sp.start < sp.stop ∧ sp.stop ≤ text.length ∧
    sp.val = (text.drop sp.start).take (sp.stop - sp.start)

theorem drop_cons_succ {α : Type} {t : List α} {i : Nat} {c : α} {rs : List α}
    (h : t.drop i = c :: rs) : t.drop (i + 1) = rs := by
  rw [show t.drop (i + 1) = (t.drop i).drop 1 from (List.drop_drop 1 i t).symm, h]
  rfl

theorem finditerGo_nil (f : Matcher) (cat : List Char) (prev : Option Char) (i skip : Nat) :
    finditerGo f cat [] prev i skip = [] := rfl

theorem finditerGo_skipStep (f : Matcher) (cat : List Char) (c : Char) (rs : List Char)
    (prev : Option Char) (i k : Nat) :
    finditerGo f cat (c :: rs) prev i (k + 1) = finditerGo f cat rs (some c) (i + 1) k := rfl

theorem finditerGo_scan (f : Matcher) (cat : List Char) (c : Char) (rs : List Char)
    (prev : Option Char) (i : Nat) :
    finditerGo f cat (c :: rs) prev i 0 =
      (match f prev (c :: rs) with
       | some (Nat.succ len) =>
         Span.mk i (i + (len + 1)) cat ((c :: rs).take (len + 1)) ::
           finditerGo f cat rs (some c) (i + 1) len
       | _ => finditerGo f cat rs (some c) (i + 1) 0) := rfl

theorem finditerGo_wf {f : Matcher} {cat : List Char} (hf : MBound f) (text : List Char) :
    ∀ (rest : List Char) (prev : Option Char) (i skip : Nat), rest = text.drop i →
      ∀ sp ∈ finditerGo f cat rest prev i skip, SpanWf text sp ∧ sp.cat = cat := by
  intro rest
  induction rest with
  | nil =>
    intro prev i skip h sp hsp
    rw [finditerGo_nil] at hsp
    exact absurd hsp (List.not_mem_nil sp)
  | cons c rs ih =>
    intro prev i skip hrest sp hsp
    have hdrop : text.drop (i + 1) = rs := drop_cons_succ hrest.symm
    cases skip with
    | succ k =>
      rw [finditerGo_skipStep] at hsp
      exact ih (some c) (i + 1) k hdrop.symm sp hsp
    | zero =>
      rw [finditerGo_scan] at hsp
      cases hm : f prev (c :: rs) with
      | some L =>
        cases L with
        | zero =>
          rw [hm] at hsp
          dsimp only at hsp
          exact ih (some c) (i + 1) 0 hdrop.symm sp hsp
        | succ len =>
          rw [hm] at hsp
          dsimp only at hsp
          rcases List.mem_cons.mp hsp with rfl | hsp'
          · have hlen : len + 1 ≤ (c :: rs).length := hf prev (c :: rs) (len + 1) hm
            have hlen2 : (c :: rs).length = text.length - i := by
              rw [hrest, List.length_drop]
            have hile : i < text.length := by
              by_contra hgt
              push_neg at hgt
              have hnil : text.drop i = [] := List.drop_eq_nil_of_le hgt
              rw [hnil] at hrest
              exact List.noConfusion hrest
            refine ⟨⟨?_, ?_, ?_⟩, rfl⟩
            · show i < i + (len + 1)
              omega
            · show i + (len + 1) ≤ text.length
              omega
            · show (c :: rs).take (len + 1) = (text.drop i).take (i + (len + 1) - i)
              rw [← hrest]
              congr 1
              omega
          · exact ih (some c) (i + 1) len hdrop.symm sp hsp'
      | none =>
        rw [hm] at hsp
        dsimp only at hsp
        exact ih (some c) (i + 1) 0 hdrop.symm sp hsp

theorem findAll_wf (text : List Char) :
    ∀ sp ∈ findAll text, SpanWf text sp ∧ sp.cat ∈ catNames := by
  intro sp hsp
  unfold findAll at hsp
  rw [List.mem_flatten] at hsp
  obtain ⟨l, hl, hspl⟩ := hsp
  rw [List.mem_map] at hl
  obtain ⟨pc, hpc, rfl⟩ := hl
  obtain ⟨hb, hcat⟩ := patterns_bound pc hpc
  obtain ⟨hwf, hcateq⟩ := finditerGo_wf hb text text none 0 0 (by simp) sp hspl
  exact ⟨hwf, by rw [hcateq]; exact hcat⟩

theorem mem_sortDesc {z : Span} : ∀ {l : List Span}, z ∈ sortDesc l ↔ z ∈ l := by
  intro l
  induction l with
  | nil => simp [sortDesc]
  | cons x xs ih => simp [sortDesc, mem_insertDesc, ih]

theorem filterOvGo_subset (l : List Span) :
    ∀ (acc : List Span) (z : Span), z ∈ filterOvGo acc l → z ∈ acc ∨ z ∈ l := by
  induction l with
  | nil => intro acc z h; exact Or.inl h
  | cons m rest ih =>
    intro acc z h
    by_cases hov : overlapsAny acc m
    · simp only [filterOvGo, hov, if_true] at h
      rcases ih acc z h with h' | h'
      · exact Or.inl h'
      · exact Or.inr (List.mem_cons_of_mem _ h')
    · have hov' : overlapsAny acc m = false := by simpa using hov
      simp only [filterOvGo, hov', Bool.false_eq_true, if_false] at h
      rcases ih (acc ++ [m]) z h with h' | h'
      · rcases List.mem_append.mp h' with h'' | h''
        · exact Or.inl h''
        · rw [List.mem_singleton] at h''
          subst h''
          exact Or.inr (List.mem_cons_self _ _)
      · exact Or.inr (List.mem_cons_of_mem _ h')

theorem keptSpans_wf (text : List Char) :
    ∀ sp ∈ keptSpans text, SpanWf text sp ∧ sp.cat ∈ catNames := by
  intro sp hsp
  unfold keptSpans at hsp
  rcases filterOvGo_subset _ _ sp hsp with h | h
  · exact absurd h (List.not_mem_nil _)
  · exact findAll_wf text sp (mem_sortDesc.mp h)

theorem keptSpans_chain (text : List Char) :
    (keptSpans text).Pairwise (fun u w => w.stop ≤ u.start) := by
  have h1 := keptSpans_sorted text
  have h2 : (keptSpans text).Pairwise SpansDisjoint :=
    filterOvGo_pairwise_disjoint (sortDesc (findAll text)) [] List.Pairwise.nil
  refine List.Pairwise.imp_of_mem ?_ (h1.and h2)
  intro u w hu hw hr
  obtain ⟨hge, hdisj⟩ := hr
  have huwf := (keptSpans_wf text u hu).1
  rcases hdisj with hd | hd
  · have h3 := huwf.1
    omega
  · exact hd

/-! ### Claim C1 machinery, part 5: decomposing the redacted text -/

/-- One piece of the redacted text: an untouched segment of the original, or
an inserted placeholder together with the original value it replaced. -/
inductive Piece where
  | seg (s : List Char)
  | tok (p : List Char) (v : List Char)
  deriving DecidableEq

/-- The redacted text represented by a piece list. -/
def flattenRed : List Piece → List Char
  | [] => []
  | Piece.seg s :: rest => s ++ flattenRed rest
  | Piece.tok p _ :: rest => p ++ flattenRed rest

/-- The original text represented by a piece list. -/
def flattenOrig : List Piece → List Char
  | [] => []
  | Piece.seg s :: rest => s ++ flattenOrig rest
  | Piece.tok _ v :: rest => v ++ flattenOrig rest

theorem flattenRed_append (xs ys : List Piece) :
    flattenRed (xs ++ ys) = flattenRed xs ++ flattenRed ys := by
  induction xs with
  | nil => rfl
  | cons pc rest ih => cases pc <;> simp [flattenRed, ih]

theorem flattenOrig_append (xs ys : List Piece) :
    flattenOrig (xs ++ ys) = flattenOrig xs ++ flattenOrig ys := by
  induction xs with
  | nil => rfl
  | cons pc rest ih => cases pc <;> simp [flattenOrig, ih]

theorem applyAll_cons (m : RedactionMap) (t : List Char) (sp : Span) (rest : List Span) :
    applyAll m t (sp :: rest)
      = applyAll (m.add sp.val sp.cat).1
          (t.take sp.start ++ (m.add sp.val sp.cat).2 ++ t.drop sp.stop) rest := rfl

theorem add_self_mem_forward (m : RedactionMap) (v c : List Char) :
    (v, (m.add v c).2) ∈ (m.add v c).1.forward := by
  cases h : lookupL m.forward v with
  | some p =>
    rw [add_reuse m v c p h]
    exact lookupL_some_mem h
  | none =>
    rw [add_fresh m v c h]
    simp

theorem addAll_forward_mem {m : RedactionMap} {e : List Char × List Char} (l : List Span)
    (h : e ∈ m.forward) : e ∈ (addAll m l).forward := by
  obtain ⟨ext, hext⟩ := addAll_forward_extend l m
  rw [hext]
  exact List.mem_append_left _ h

theorem take_slice_drop (t : List Char) (s e : Nat) (hse : s ≤ e) :
    t.take s ++ ((t.drop s).take (e - s) ++ t.drop e) = t := by
  rw [← List.drop_take]
  rw [show t.take s = (t.take e).take s by rw [List.take_take, min_eq_left hse]]
  rw [← List.append_assoc, List.take_append_drop, List.take_append_drop]

theorem applyAll_restrict (l : List Span) :
    ∀ (m : RedactionMap) (a x : List Char),
      (∀ sp ∈ l, sp.stop ≤ a.length) →
      l.Pairwise (fun u w => w.stop ≤ u.start) →
      (∀ sp ∈ l, sp.start < sp.stop) →
      applyAll m (a ++ x) l = ((applyAll m a l).1, (applyAll m a l).2 ++ x) := by
  induction l with
  | nil => intro m a x _ _ _; rfl
  | cons sp rest ih =>
    intro m a x hstop hchain hlt
    have h1 : sp.stop ≤ a.length := hstop sp (List.mem_cons_self _ _)
    have h2 : sp.start < sp.stop := hlt sp (List.mem_cons_self _ _)
    rw [applyAll_cons, applyAll_cons]
    rw [List.take_append_of_le_length (by omega), List.drop_append_of_le_length h1]
    rw [show a.take sp.start ++ (m.add sp.val sp.cat).2 ++ (a.drop sp.stop ++ x)
        = (a.take sp.start ++ (m.add sp.val sp.cat).2 ++ a.drop sp.stop) ++ x by
      simp [List.append_assoc]]
    have htklen : (a.take sp.start).length = sp.start := by
      rw [List.length_take]
      exact min_eq_left (by omega)
    refine ih _ _ x ?_ (List.pairwise_cons.mp hchain).2
      (fun r hr => hlt r (List.mem_cons_of_mem _ hr))
    intro r hr
    have hrs : r.stop ≤ sp.start := (List.pairwise_cons.mp hchain).1 r hr
    rw [List.length_append, List.length_append, htklen]
    omega

theorem applyAll_decompose (l : List Span) :
    ∀ (m : RedactionMap) (t : List Char),
      (∀ sp ∈ l, SpanWf t sp) →
      l.Pairwise (fun u w => w.stop ≤ u.start) →
      NoLt t →
      ∃ pieces : List Piece,
        (applyAll m t l).2 = flattenRed pieces ∧
        flattenOrig pieces = t ∧
        (∀ s, Piece.seg s ∈ pieces → NoLt s) ∧
        (∀ p v, Piece.tok p v ∈ pieces → (v, p) ∈ (applyAll m t l).1.forward) := by
  induction l with
  | nil =>
    intro m t _ _ hnolt
    refine ⟨[Piece.seg t], by simp [applyAll, flattenRed], by simp [flattenOrig], ?_, ?_⟩
    · intro s hs
      rw [List.mem_singleton] at hs
      injection hs with hs
      subst hs
      exact hnolt
    · intro p v hv
      rw [List.mem_singleton] at hv
      exact Piece.noConfusion hv
  | cons sp rest ih =>
    intro m t hwf hchain hnolt
    obtain ⟨h1, h2, h3⟩ := hwf sp (List.mem_cons_self _ _)
    have hchain1 : ∀ r ∈ rest, r.stop ≤ sp.start := (List.pairwise_cons.mp hchain).1
    have hchain2 := (List.pairwise_cons.mp hchain).2
    rw [applyAll_cons]
    rw [show t.take sp.start ++ (m.add sp.val sp.cat).2 ++ t.drop sp.stop
        = t.take sp.start ++ ((m.add sp.val sp.cat).2 ++ t.drop sp.stop) by
      simp [List.append_assoc]]
    have htklen : (t.take sp.start).length = sp.start := by
      rw [List.length_take]
      exact min_eq_left (by omega)
    rw [applyAll_restrict rest (m.add sp.val sp.cat).1 (t.take sp.start)
      ((m.add sp.val sp.cat).2 ++ t.drop sp.stop)
      (fun r hr => by rw [htklen]; exact hchain1 r hr)
      hchain2
      (fun r hr => (hwf r (List.mem_cons_of_mem _ hr)).1)]
    have hwf' : ∀ r ∈ rest, SpanWf (t.take sp.start) r := by
      intro r hr
      obtain ⟨g1, g2, g3⟩ := hwf r (List.mem_cons_of_mem _ hr)
      have hrs : r.stop ≤ sp.start := hchain1 r hr
      refine ⟨g1, by omega, ?_⟩
      rw [List.drop_take, List.take_take, min_eq_left (by omega)]
      exact g3
    obtain ⟨ps, hred, horig, hsegs, htoks⟩ :=
      ih (m.add sp.val sp.cat).1 (t.take sp.start) hwf' hchain2
        (fun c hc => hnolt c (List.take_subset _ _ hc))
    refine ⟨ps ++ [Piece.tok (m.add sp.val sp.cat).2 sp.val, Piece.seg (t.drop sp.stop)],
      ?_, ?_, ?_, ?_⟩
    · show (applyAll (m.add sp.val sp.cat).1 (t.take sp.start) rest).2
          ++ ((m.add sp.val sp.cat).2 ++ t.drop sp.stop) = _
      rw [hred, flattenRed_append]
      simp [flattenRed]
    · rw [flattenOrig_append, horig]
      show t.take sp.start ++ (sp.val ++ (t.drop sp.stop ++ [])) = t
      rw [List.append_nil, h3]
      exact take_slice_drop t sp.start sp.stop (by omega)
    · intro s hs
      rcases List.mem_append.mp hs with hs' | hs'
      · exact hsegs s hs'
      · rcases List.mem_cons.mp hs' with heq | hs''
        · exact Piece.noConfusion heq
        · rw [List.mem_singleton] at hs''
          injection hs'' with hs''
          subst hs''
          exact fun c hc => hnolt c (List.drop_subset _ _ hc)
    · intro p v hv
      rcases List.mem_append.mp hv with hv' | hv'
      · exact htoks p v hv'
      · rcases List.mem_cons.mp hv' with heq | hv''
        · injection heq with he1 he2
          subst he1
          subst he2
          show (sp.val, (m.add sp.val sp.cat).2)
            ∈ (applyAll (m.add sp.val sp.cat).1 (t.take sp.start) rest).1.forward
          rw [applyAll_fst]
          exact addAll_forward_mem rest (add_self_mem_forward m sp.val sp.cat)
        · rw [List.mem_singleton] at hv''
          exact Piece.noConfusion hv''

/-! ### Claim C1 machinery, part 6: `str.replace` on segmented text -/

theorem replGo_nil (pat rep : List Char) (k : Nat) : replGo pat rep [] k = [] := rfl

theorem replGo_skipStep (pat rep : List Char) (c : Char) (cs : List Char) (k : Nat) :
    replGo pat rep (c :: cs) (k + 1) = replGo pat rep cs k := rfl

theorem replGo_scan (pat rep : List Char) (c : Char) (cs : List Char) :
    replGo pat rep (c :: cs) 0 =
      if !pat.isEmpty && listIsPre pat (c :: cs) then
        rep ++ replGo pat rep cs (pat.length - 1)
      else c :: replGo pat rep cs 0 := rfl

theorem listIsPre_cons (a b : Char) (ps qs : List Char) :
    listIsPre (a :: ps) (b :: qs) = (a == b && listIsPre ps qs) := rfl

theorem replGo_seg {pat : List Char} (rep : List Char) {pt : List Char}
    (hpat : pat = '<' :: pt) :
    ∀ (s X : List Char), NoLt s → replGo pat rep (s ++ X) 0 = s ++ replGo pat rep X 0 := by
  intro s
  induction s with
  | nil => intro X _; rfl
  | cons c cs ihs =>
    intro X h
    have hc : c ≠ '<' := h c (List.mem_cons_self _ _)
    rw [List.cons_append, replGo_scan]
    have hpre : listIsPre pat (c :: (cs ++ X)) = false := by
      rw [hpat, listIsPre_cons]
      have : ('<' == c) = false := by simpa using Ne.symm hc
      rw [this, Bool.false_and]
    rw [hpre, Bool.and_false, if_neg Bool.false_ne_true]
    rw [ihs X (fun d hd => h d (List.mem_cons_of_mem _ hd))]
    rfl

theorem replGo_passPrefix (pat rep : List Char) :
    ∀ (a X : List Char), replGo pat rep (a ++ X) a.length = replGo pat rep X 0 := by
  intro a
  induction a with
  | nil => intro X; rfl
  | cons c cs ih =>
    intro X
    rw [List.cons_append]
    show replGo pat rep (c :: (cs ++ X)) (cs.length + 1) = _
    rw [replGo_skipStep]
    exact ih X

theorem body_not_pre {pb : List Char} :
    ∀ {qb : List Char} (X : List Char), (∀ c ∈ pb, c ≠ '>') → (∀ c ∈ qb, c ≠ '>') →
      pb ≠ qb → listIsPre (pb ++ ['>']) (qb ++ ('>' :: X)) = false := by
  induction pb with
  | nil =>
    intro qb X hpb hqb hne
    cases qb with
    | nil => exact absurd rfl hne
    | cons c qs =>
      rw [List.nil_append, List.cons_append, listIsPre_cons]
      have hc : c ≠ '>' := hqb c (List.mem_cons_self _ _)
      have : ('>' == c) = false := by simpa using Ne.symm hc
      rw [this, Bool.false_and]
  | cons a ps ih =>
    intro qb X hpb hqb hne
    cases qb with
    | nil =>
      rw [List.cons_append, List.nil_append, listIsPre_cons]
      have ha : a ≠ '>' := hpb a (List.mem_cons_self _ _)
      have : (a == '>') = false := by simpa using ha
      rw [this, Bool.false_and]
    | cons b qs =>
      rw [List.cons_append, List.cons_append, listIsPre_cons]
      by_cases hab : a = b
      · subst hab
        have hne' : ps ≠ qs := fun hh => hne (by rw [hh])
        rw [ih X (fun d hd => hpb d (List.mem_cons_of_mem _ hd))
          (fun d hd => hqb d (List.mem_cons_of_mem _ hd)) hne']
        rw [Bool.and_false]
      · have : (a == b) = false := by simpa using hab
        rw [this, Bool.false_and]

theorem listIsPre_ph_false {p q : List Char} (hp : PhShape p) (hq : PhShape q) (hne : p ≠ q)
    (X : List Char) : listIsPre p (q ++ X) = false := by
  obtain ⟨pb, hpe, hpb⟩ := hp
  obtain ⟨qb, hqe, hqb⟩ := hq
  subst hpe
  subst hqe
  rw [List.cons_append, listIsPre_cons]
  have hbne : pb ≠ qb := by
    intro hh
    exact hne (by rw [hh])
  rw [show (qb ++ ['>']) ++ X = qb ++ ('>' :: X) by simp]
  rw [body_not_pre X (fun c hc => (hpb c hc).2) (fun c hc => (hqb c hc).2) hbne]
  rw [Bool.and_false]

theorem listIsPre_self_append (p X : List Char) : listIsPre p (p ++ X) = true := by
  induction p with
  | nil => rfl
  | cons a ps ih =>
    rw [List.cons_append, listIsPre_cons, ih]
    simp

theorem replGo_tok_ne {pat : List Char} (rep : List Char) (hpat : PhShape pat)
    {q : List Char} (hq : PhShape q) (hne : pat ≠ q) (X : List Char) :
    replGo pat rep (q ++ X) 0 = q ++ replGo pat rep X 0 := by
  obtain ⟨qb, hqe, hqb⟩ := hq
  have hpre := listIsPre_ph_false hpat ⟨qb, hqe, hqb⟩ hne X
  subst hqe
  rw [List.cons_append] at hpre
  rw [List.cons_append, replGo_scan, hpre, Bool.and_false, if_neg Bool.false_ne_true]
  obtain ⟨pb, hpe, hpb⟩ := hpat
  rw [replGo_seg rep hpe (qb ++ ['>']) X ?_]
  · rw [List.cons_append, List.append_assoc]
  · intro c hc
    rcases List.mem_append.mp hc with h' | h'
    · exact (hqb c h').1
    · rw [List.mem_singleton] at h'
      subst h'
      decide

theorem replGo_tok_eq {pat : List Char} (rep : List Char) (hpat : PhShape pat) (X : List Char) :
    replGo pat rep (pat ++ X) 0 = rep ++ replGo pat rep X 0 := by
  obtain ⟨pb, hpe, hpb⟩ := hpat
  have hpre := listIsPre_self_append pat X
  subst hpe
  rw [List.cons_append] at hpre
  rw [List.cons_append, replGo_scan, hpre]
  rw [show (!('<' :: (pb ++ ['>'])).isEmpty && true) = true by simp [List.isEmpty]]
  rw [if_pos rfl]
  rw [show ('<' :: (pb ++ ['>'])).length - 1 = (pb ++ ['>']).length by simp]
  rw [replGo_passPrefix]

/-- Substituting one placeholder by its original turns matching placeholder
pieces into segments. -/
def substPair (p v : List Char) : Piece → Piece
  | Piece.seg s => Piece.seg s
  | Piece.tok q w => if q = p then Piece.seg v else Piece.tok q w

theorem replaceAll_flatten {pat : List Char} (rep : List Char) (hpat : PhShape pat) :
    ∀ pieces : List Piece,
      (∀ s, Piece.seg s ∈ pieces → NoLt s) →
      (∀ p v, Piece.tok p v ∈ pieces → PhShape p) →
      replaceAll (flattenRed pieces) pat rep
        = flattenRed (pieces.map (substPair pat rep)) := by
  intro pieces
  induction pieces with
  | nil => intro _ _; rfl
  | cons pc rest ih =>
    intro hseg htok
    have ih' := ih (fun s hs => hseg s (List.mem_cons_of_mem _ hs))
      (fun p v hv => htok p v (List.mem_cons_of_mem _ hv))
    cases pc with
    | seg s =>
      show replGo pat rep (s ++ flattenRed rest) 0 = _
      obtain ⟨pb, hpe, -⟩ := hpat
      rw [replGo_seg rep hpe s (flattenRed rest) (hseg s (List.mem_cons_self _ _))]
      show s ++ replaceAll (flattenRed rest) pat rep = _
      rw [ih']
      rfl
    | tok q w =>
      have hqshape := htok q w (List.mem_cons_self _ _)
      by_cases hq : q = pat
      · show replGo pat rep (q ++ flattenRed rest) 0
          = flattenRed (substPair pat rep (Piece.tok q w) :: rest.map (substPair pat rep))
        rw [hq, replGo_tok_eq rep hpat]
        rw [show substPair pat rep (Piece.tok pat w) = Piece.seg rep by simp [substPair]]
        show rep ++ replaceAll (flattenRed rest) pat rep = rep ++ _
        rw [ih']
      · show replGo pat rep (q ++ flattenRed rest) 0
          = flattenRed (substPair pat rep (Piece.tok q w) :: rest.map (substPair pat rep))
        rw [replGo_tok_ne rep hpat hqshape (fun hh => hq hh.symm)]
        rw [show substPair pat rep (Piece.tok q w) = Piece.tok q w by simp [substPair, hq]]
        show q ++ replaceAll (flattenRed rest) pat rep = q ++ _
        rw [ih']

theorem flattenRed_eq_orig (pieces : List Piece)
    (h : ∀ p v, Piece.tok p v ∈ pieces → False) : flattenRed pieces = flattenOrig pieces := by
  induction pieces with
  | nil => rfl
  | cons pc rest ih =>
    cases pc with
    | seg s =>
      show s ++ flattenRed rest = s ++ flattenOrig rest
      rw [ih (fun p v hv => h p v (List.mem_cons_of_mem _ hv))]
    | tok p v => exact (h p v (List.mem_cons_self _ _)).elim

theorem flattenOrig_substPair (p v : List Char) (pieces : List Piece)
    (hcoh : ∀ w, Piece.tok p w ∈ pieces → w = v) :
    flattenOrig (pieces.map (substPair p v)) = flattenOrig pieces := by
  induction pieces with
  | nil => rfl
  | cons pc rest ih =>
    have ih' := ih (fun w hw => hcoh w (List.mem_cons_of_mem _ hw))
    cases pc with
    | seg s =>
      show s ++ flattenOrig (rest.map (substPair p v)) = s ++ flattenOrig rest
      rw [ih']
    | tok q w =>
      by_cases hq : q = p
      · subst hq
        have hw : w = v := hcoh w (List.mem_cons_self _ _)
        show flattenOrig (substPair q v (Piece.tok q w) :: rest.map (substPair q v))
          = w ++ flattenOrig rest
        rw [show substPair q v (Piece.tok q w) = Piece.seg v by simp [substPair]]
        show v ++ flattenOrig (rest.map (substPair q v)) = w ++ flattenOrig rest
        rw [ih', hw]
      · show flattenOrig (substPair p v (Piece.tok q w) :: rest.map (substPair p v))
          = w ++ flattenOrig rest
        rw [show substPair p v (Piece.tok q w) = Piece.tok q w by simp [substPair, hq]]
        show w ++ flattenOrig (rest.map (substPair p v)) = w ++ flattenOrig rest
        rw [ih']

theorem deRedactFold :
    ∀ (pairs : List (List Char × List Char)) (pieces : List Piece),
      (∀ s, Piece.seg s ∈ pieces → NoLt s) →
      (∀ p v, Piece.tok p v ∈ pieces → (p, v) ∈ pairs) →
      (pairs.map (fun e : List Char × List Char => e.1)).Nodup →
      (∀ e ∈ pairs, PhShape e.1 ∧ NoLt e.2) →
      pairs.foldl (fun acc pr => replaceAll acc pr.1 pr.2) (flattenRed pieces)
        = flattenOrig pieces := by
  intro pairs
  induction pairs with
  | nil =>
    intro pieces hseg htok _ _
    show flattenRed pieces = flattenOrig pieces
    exact flattenRed_eq_orig pieces (fun p v hv => absurd (htok p v hv) (List.not_mem_nil _))
  | cons pr rest ih =>
    intro pieces hseg htok hnd hsh
    rw [List.map_cons] at hnd
    obtain ⟨hndhead, hndtail⟩ := List.nodup_cons.mp hnd
    rw [List.foldl_cons]
    have hprshape : PhShape pr.1 := (hsh pr (List.mem_cons_self _ _)).1
    have hshapes : ∀ p v, Piece.tok p v ∈ pieces → PhShape p :=
      fun p v hv => (hsh (p, v) (htok p v hv)).1
    rw [replaceAll_flatten pr.2 hprshape pieces hseg hshapes]
    have hcoh : ∀ w, Piece.tok pr.1 w ∈ pieces → w = pr.2 := by
      intro w hw
      rcases List.mem_cons.mp (htok pr.1 w hw) with heq | hmem'
      · exact congrArg Prod.snd heq
      · exact absurd (List.mem_map.mpr ⟨(pr.1, w), hmem', rfl⟩) hndhead
    have hseg' : ∀ s, Piece.seg s ∈ pieces.map (substPair pr.1 pr.2) → NoLt s := by
      intro s hs
      obtain ⟨pc, hpc, heq⟩ := List.mem_map.mp hs
      cases pc with
      | seg s0 =>
        injection heq with heq
        subst heq
        exact hseg s0 hpc
      | tok q w =>
        by_cases hq : q = pr.1
        · rw [show substPair pr.1 pr.2 (Piece.tok q w) = Piece.seg pr.2 by
            simp [substPair, hq]] at heq
          injection heq with heq
          subst heq
          exact (hsh pr (List.mem_cons_self _ _)).2
        · rw [show substPair pr.1 pr.2 (Piece.tok q w) = Piece.tok q w by
            simp [substPair, hq]] at heq
          exact Piece.noConfusion heq
    have htok' : ∀ p v, Piece.tok p v ∈ pieces.map (substPair pr.1 pr.2) → (p, v) ∈ rest := by
      intro p v hv
      obtain ⟨pc, hpc, heq⟩ := List.mem_map.mp hv
      cases pc with
      | seg s0 => exact Piece.noConfusion heq
      | tok q w =>
        by_cases hq : q = pr.1
        · rw [show substPair pr.1 pr.2 (Piece.tok q w) = Piece.seg pr.2 by
            simp [substPair, hq]] at heq
          exact Piece.noConfusion heq
        · rw [show substPair pr.1 pr.2 (Piece.tok q w) = Piece.tok q w by
            simp [substPair, hq]] at heq
          injection heq with he1 he2
          subst he1
          subst he2
          rcases List.mem_cons.mp (htok q w hpc) with heq' | hmem'
          · exact absurd (congrArg Prod.fst heq') hq
          · exact hmem'
    rw [ih (pieces.map (substPair pr.1 pr.2)) hseg' htok' hndtail
      (fun e he => hsh e (List.mem_cons_of_mem _ he))]
    exact flattenOrig_substPair pr.1 pr.2 pieces hcoh

/-! ### Claim C1: assembly -/

instance (s : List Char) : Decidable (NoLt s) := List.decidableBAll _ s

deriving instance DecidableEq for Except

theorem mapInv_rev_keys_nodup {m : RedactionMap} (inv : MapInv m) :
    (m.reverse.map (fun e : List Char × List Char => e.1)).Nodup := by
  rw [inv.rev_eq, List.map_map]
  exact inv.ph_nodup

theorem mapInv_rev_shapes {m : RedactionMap} (inv : MapInv m) :
    ∀ e ∈ m.reverse, PhShape e.1 ∧ NoLt e.2 := by
  intro e he
  rw [inv.rev_eq] at he
  obtain ⟨e0, he0, heq⟩ := List.mem_map.mp he
  obtain ⟨c, n, hc, -, -, hph⟩ := inv.shapes e0 he0
  subst heq
  constructor
  · show PhShape e0.2
    rw [hph]
    exact mkPlaceholder_shape hc n
  · exact inv.vals_noLt e0 he0

theorem mapInv_forward_rev_mem {m : RedactionMap} (inv : MapInv m) {v p : List Char}
    (h : (v, p) ∈ m.forward) : (p, v) ∈ m.reverse := by
  rw [inv.rev_eq]
  exact List.mem_map.mpr ⟨(v, p), h, rfl⟩

/-- Claim C1 (amended): for any input text free of the placeholder delimiter
`<` — in particular, any text containing no placeholder-shaped token — while
the map has not been released, de-redacting the redacted text through the
store restores the original text exactly. -/
theorem redact_de_redact_roundtrip (store : Store) (newId text : List Char)
    (h : NoLt text) :
    de_redact (redact store newId text).2.2 (redact store newId text).1
      (redact store newId text).2.1.id = Except.ok text := by
  by_cases hws : text.all isPySpace
  · simp [redact, hws, de_redact, RedactionMap.mkEmpty, lookupL_setL_self]
  · by_cases hfa : (findAll text).isEmpty
    · simp [redact, hws, hfa, de_redact, RedactionMap.mkEmpty, lookupL_setL_self]
    · have hws' : text.all isPySpace = false := by simpa using hws
      have hfa' : (findAll text).isEmpty = false := by simpa using hfa
      have hred : redact store newId text
          = ((applyAll (RedactionMap.mkEmpty newId) text (keptSpans text)).2,
             (applyAll (RedactionMap.mkEmpty newId) text (keptSpans text)).1,
             setL store (applyAll (RedactionMap.mkEmpty newId) text (keptSpans text)).1.id
               (applyAll (RedactionMap.mkEmpty newId) text (keptSpans text)).1) := by
        simp [redact, hws', hfa']
      rw [hred]
      have hwfAll : ∀ sp ∈ keptSpans text, SpanWf text sp :=
        fun sp hsp => (keptSpans_wf text sp hsp).1
      obtain ⟨pieces, hredEq, horig, hsegs, htoks⟩ :=
        applyAll_decompose (keptSpans text) (RedactionMap.mkEmpty newId) text hwfAll
          (keptSpans_chain text) h
      have hinv : MapInv (applyAll (RedactionMap.mkEmpty newId) text (keptSpans text)).1 := by
        rw [applyAll_fst]
        refine mapInv_addAll (keptSpans text) _ (mapInv_empty newId) ?_
        intro sp hsp
        refine ⟨(keptSpans_wf text sp hsp).2, ?_⟩
        intro c hc
        have hval := (keptSpans_wf text sp hsp).1.2.2
        rw [hval] at hc
        exact h c (List.drop_subset _ _ (List.take_subset _ _ hc))
      show de_redact _ _ _ = _
      unfold de_redact
      rw [lookupL_setL_self]
      show Except.ok _ = _
      rw [hredEq]
      rw [deRedactFold _ pieces hsegs
        (fun p v hv => mapInv_forward_rev_mem hinv (htoks p v hv))
        (mapInv_rev_keys_nodup hinv) (mapInv_rev_shapes hinv)]
      rw [horig]

/-- The concrete input of the C1 counterexample: the text already contains the
very placeholder token the phone number will be assigned. -/
def exTextC1 : List Char := r"<PHONE_NUMBER_1> 91234567".toList

/-- Counterexample to claim C1 as stated: redacting
`"<PHONE_NUMBER_1> 91234567"` maps `91234567` to `<PHONE_NUMBER_1>`, and
de-redaction replaces both occurrences of that token — the pre-existing
literal one included — returning `"91234567 91234567"`, not the original. -/
theorem redact_roundtrip_counterexample :
    de_redact (redact ([] : Store) (r"m0".toList) exTextC1).2.2
        (redact ([] : Store) (r"m0".toList) exTextC1).1
        (redact ([] : Store) (r"m0".toList) exTextC1).2.1.id
      = Except.ok (r"91234567 91234567".toList) ∧
    r"91234567 91234567".toList ≠ exTextC1 := by
  constructor
  · decide
  · decide

/-- Witness for the amended C1 theorem, at the spec's own example text. -/
def exTextC1w : List Char := r"Call John at 91234567, NRIC S1234567A".toList

/-- Witness for the amended C1 round-trip at a concrete `<`-free text. -/
theorem redact_de_redact_roundtrip_witness :
    NoLt exTextC1w ∧
    de_redact (redact ([] : Store) (r"w1".toList) exTextC1w).2.2
        (redact ([] : Store) (r"w1".toList) exTextC1w).1
        (redact ([] : Store) (r"w1".toList) exTextC1w).2.1.id = Except.ok exTextC1w :=
  ⟨by decide, redact_de_redact_roundtrip ([] : Store) (r"w1".toList) exTextC1w (by decide)⟩
